import Mathlib

/-!
# scrabbler: a Scrabble move generator (`main.go`)

A shallow embedding of the dictionary tree (`Dawg`, `readDawg`, `verify`), the
board (`Board`, `onBoard`, `trans`), the cross-check tables (`getCols`,
`getRowsAndCols`) and the search (`findAllMoves` with its inner closure `move`).

Conventions of the embedding.

* A Go `rune` is a `Char`; a word is the list of runes that `range` yields over
  the string.
* A Go `map[rune]V` is an association list with at most one pair per key
  (`GoMap`); assignment `m[k] = v` overwrites in place or appends. Go iterates a
  map in an unspecified order, the embedding iterates in list order.
* The `*Dawg` pointers are addresses into a heap (`Heap`, a list of nodes, the
  address being the position); `nil` is `none`. The root lives at address `0`.
* Go's `int` is `Int`; no count or index here gets near the 64-bit limits.
* The goroutines of `findAllMoves` share no memory that is written; each search
  step only sends its finished move on `movech`. The function `findAllMoves` of
  the embedding lists the moves sent by the 450 top-level steps and by every step
  they spawn, in depth-first order: this is the content of the returned slice in
  a run where `movech` is closed after the last step has finished. The order of
  the slice is fixed by the scheduler, so only membership is meaningful.
* Whether a run gets that far is decided by the counting protocol on
  `threadCount`. It is embedded apart, as a transition system (`Sys`, `Event`,
  `fire`, `run`) over the same steps (`spawns`, `sends`, `topCalls`).
-/

namespace Scrabbler

/-- Go's `rune`. -/
abbrev Rune := Char

/-- Go's `map[rune]V`: association list, one pair per key. -/
abbrev GoMap (V : Type) := List (Rune × V)

namespace GoMap

/-- The two-valued read `v, exists := m[k]`. -/
def get? {V : Type} (m : GoMap V) (k : Rune) : Option V :=
  match m with
  | [] => none
  | (k', v) :: rest => if k' = k then some v else get? rest k

/-- The `exists` half of `_, exists := m[k]`. -/
def has {V : Type} (m : GoMap V) (k : Rune) : Bool :=
  (get? m k).isSome

/-- The single-valued read `m[k]`, the zero value `z` standing in for a missing key. -/
def getD {V : Type} (m : GoMap V) (k : Rune) (z : V) : V :=
  (get? m k).getD z

/-- The assignment `m[k] = v`. -/
def set {V : Type} (m : GoMap V) (k : Rune) (v : V) : GoMap V :=
  match m with
  | [] => [(k, v)]
  | (k', v') :: rest => if k' = k then (k', v) :: rest else (k', v') :: set rest k v

/-- The keys visited by `for k, _ := range m`. -/
def keys {V : Type} (m : GoMap V) : List Rune :=
  m.map Prod.fst

end GoMap

/-! ## Dictionary tree -/

/-- The struct `Dawg`; `parent` and the values of `childs` are heap addresses. -/
structure Dawg where
  parent : Option Nat
  letter : Rune
  word : Bool
  childs : GoMap Nat
  deriving DecidableEq, Repr

/-- The memory holding the tree nodes; a `*Dawg` is a position in this list. -/
abbrev Heap := List Dawg

/-- The literal `Dawg{nil, ' ', false, make(map[rune]*Dawg)}` of `readDawg`. -/
def rootNode : Dawg := ⟨none, ' ', false, []⟩

/-- Dereference of a `*Dawg`. Every address the program holds was handed out by
an allocation, so the filler for a position past the heap is never read. -/
def node (h : Heap) (p : Nat) : Dawg :=
  h.getD p rootNode

/-- One round of the inner loop of `readDawg` (lines 41-49): from `head`, step to
the child for `char`, allocating it first when it is missing. The state is the
heap and the address in `head`. -/
def descend (s : Heap × Nat) (char : Rune) : Heap × Nat :=
  match GoMap.get? (node s.1 s.2).childs char with
  | some c => (s.1, c)
  | none =>
    let child : Dawg := ⟨some s.2, char, false, []⟩
    let c := s.1.length
    (List.modify (fun n => { n with childs := GoMap.set n.childs char c }) s.2 s.1 ++ [child], c)

/-- One round of the outer loop of `readDawg` (lines 39-51): walk `line` from the
root, then `head.word = true`. -/
def insertLine (h : Heap) (line : List Rune) : Heap :=
  let s := line.foldl descend (h, 0)
  List.modify (fun n => { n with word := true }) s.2 s.1

/-- The tree `readDawg` builds from the lines the scanner yields; the result is
the heap, the returned root being the node at address `0`. -/
def readDawg (lines : List (List Rune)) : Heap :=
  lines.foldl insertLine [rootNode]

/-- The method `verify` (lines 60-69), `head` being the receiver. -/
def verify (h : Heap) (head : Nat) (word : List Rune) : Bool :=
  match word with
  | [] => (node h head).word
  | char :: rest =>
    match GoMap.get? (node h head).childs char with
    | none => false
    | some c => verify h c rest

/-! ## Board -/

/-- The struct `Board`: the hand and the `[15][15]rune` grid. -/
structure Board where
  hand : GoMap Int
  board : Fin 15 → Fin 15 → Rune

/-- The read `b.board[x][y]` at integer indices. Every read in the program is
either guarded by `onBoard` or indexed by a loop over the grid, so the filler for
an index off the grid is never observed. -/
def Board.cell (b : Board) (x y : Int) : Rune :=
  if h : 0 ≤ x ∧ x < 15 ∧ 0 ≤ y ∧ y < 15 then
    b.board ⟨x.toNat, by omega⟩ ⟨y.toNat, by omega⟩
  else ' '

/-- The variadic `onBoard` (lines 71-78). -/
def onBoard (xs : List Int) : Bool :=
  match xs with
  | [] => true
  | x :: rest => if x < 0 ∨ 15 ≤ x then false else onBoard rest

/-- The tuple assignment of line 83:
`b.board[x][y], b.board[y][x] = b.board[y][x], b.board[x][y]`. -/
def swapCells (g : Fin 15 → Fin 15 → Rune) (x y : Fin 15) : Fin 15 → Fin 15 → Rune :=
  fun a c => if a = x ∧ c = y then g y x else if a = y ∧ c = x then g x y else g a c

/-- The inner `for y` loop of `trans` for one `x`. -/
def transRow (g : Fin 15 → Fin 15 → Rune) (x : Fin 15) : Fin 15 → Fin 15 → Rune :=
  (List.finRange 15).foldl (fun g y => swapCells g x y) g

/-- The method `trans` (lines 80-86): both loops run over all of `0..14`. -/
def Board.trans (b : Board) : Board :=
  { b with board := (List.finRange 15).foldl transRow b.board }

/-! ## Cross-check tables -/

/-- One cross-check set, a `map[rune]int`; the search only tests its keys. -/
abbrev Cell := GoMap Int

/-- The loop of line 134, `for mx = 0; onBoard(x-mx-1) && b.board[x-mx-1][y] != ' '; mx++`.
The first argument bounds the rounds; `15` is never reached since `x - mx - 1`
leaves the board first. -/
def wordStart (b : Board) (x y : Int) : Nat → Int → Int
  | 0, mx => mx
  | fuel + 1, mx =>
    if onBoard [x - mx - 1] && b.cell (x - mx - 1) y != ' ' then
      wordStart b x y fuel (mx + 1)
    else mx

/-- The loop of lines 136-138 collecting the run of letters around `(x, y)`, the
cell itself included. The first argument bounds the rounds. -/
def wordFrom (b : Board) (x y mx : Int) : Nat → Int → List Rune
  | 0, _ => []
  | fuel + 1, l =>
    if onBoard [x - mx + l] && (b.cell (x - mx + l) y != ' ' || l == mx) then
      b.cell (x - mx + l) y :: wordFrom b x y mx fuel (l + 1)
    else []

/-- The body of the double loop of `getCols` (lines 117-145): the set stored in
`cols[x][y]`. -/
def colsCell (d : Heap) (b : Board) (x y : Int) : Cell :=
  let ch := b.cell x y
  if ch != ' ' then
    GoMap.set (GoMap.set (GoMap.set ([] : Cell) ch 1) 'A' 0) 'S' 0
  else
    let c0 := GoMap.set ([] : Cell) 'E' 0
    if (!onBoard [x - 1] || b.cell (x - 1) y == ' ') &&
        (!onBoard [x + 1] || b.cell (x + 1) y == ' ') then
      (GoMap.keys b.hand).foldl (fun c char => GoMap.set c char 1) c0
    else
      let c1 := GoMap.set c0 'A' 0
      let mx := wordStart b x y 15 0
      let word := wordFrom b x y mx 15 0
      (GoMap.keys b.hand).foldl
        (fun c char => if verify d 0 (word.set mx.toNat char) then GoMap.set c char 1 else c) c1

/-- The method `getCols` (lines 110-150): the table of sets, then
`cols[7][7]['A'] = 0`. -/
def getCols (d : Heap) (b : Board) : List (List Cell) :=
  let cols := (List.range 15).map fun x => (List.range 15).map fun y => colsCell d b x y
  List.modify (fun col => List.modify (fun c => GoMap.set c 'A' 0) 7 col) 7 cols

/-- The method `getRowsAndCols` (lines 152-158); the third component is the board
as the call leaves it. -/
def getRowsAndCols (d : Heap) (b : Board) : List (List Cell) × List (List Cell) × Board :=
  let cols := getCols d b
  let b1 := b.trans
  let rows := getCols d b1
  let b2 := b1.trans
  (rows, cols, b2)

/-! ## Search -/

/-- The struct `Move`. -/
structure Move where
  x : Int
  y : Int
  down : Bool
  letters : List Rune
  deriving DecidableEq, Repr

/-- The loop of lines 205-208 walking the `parent` pointers and prepending each
`letter`. The first argument bounds the rounds. -/
def lettersOf (h : Heap) : Nat → Nat → List Rune → List Rune
  | 0, _, acc => acc
  | fuel + 1, tail, acc =>
    match (node h tail).parent with
    | none => acc
    | some p => lettersOf h fuel p ((node h tail).letter :: acc)

/-- The loop of lines 209-220 replacing by `'_'` each letter the board already
holds; `i` is the index of the first letter of the list. -/
def markPlaced (b : Board) (m : Move) : Int → List Rune → List Rune
  | _, [] => []
  | i, l :: rest =>
    let x := if m.down then m.x else m.x + i
    let y := if m.down then m.y + i else m.y
    (if b.cell x y == l then '_' else l) :: markPlaced b m (i + 1) rest

/-- Lines 202-221: the move sent on `movech` by a step standing at `head`. -/
def emitted (d : Heap) (b : Board) (m : Move) (head : Nat) : Move :=
  { m with letters := markPlaced b m 0 (lettersOf d d.length head []) }

/-- The closure `move` (lines 165-225): all moves sent on `movech` by the step
and by the steps it spawns. -/
def move (d : Heap) (b : Board) (m : Move) (anchored : Bool) (hand : GoMap Int) (head : Nat)
    (remaining : List Cell) : List Move :=
  match remaining with
  | [] => if (node d head).word && anchored && true then [emitted d b m head] else []
  | cell :: rest =>
    let anchored1 := GoMap.has cell 'A' || anchored
    let spawned := (GoMap.keys cell).flatMap fun char =>
      if (match GoMap.get? hand char with
          | none => true
          | some n => n == 0) && !GoMap.has cell 'S' then []
      else
        match GoMap.get? (node d head).childs char with
        | none => []
        | some newHead =>
          move d b m anchored1 (GoMap.set hand char (GoMap.getD hand char 0 - 1)) newHead rest
    let canEnd := GoMap.has cell 'E'
    spawned ++ (if (node d head).word && anchored1 && canEnd then [emitted d b m head] else [])

/-- The method `findAllMoves` (lines 160-257): the moves found by the 450
top-level searches, on the board as `getRowsAndCols` leaves it. -/
def findAllMoves (d : Heap) (b : Board) : List Move :=
  let rc := getRowsAndCols d b
  let rows := rc.1
  let cols := rc.2.1
  let b1 := rc.2.2
  (List.range 15).flatMap fun i => (List.range 15).flatMap fun j =>
    move d b1 ⟨i, j, true, []⟩ false b1.hand 0 ((cols.getD i []).drop j) ++
      move d b1 ⟨j, i, false, []⟩ false b1.hand 0 ((rows.getD i []).drop j)

/-! ## Definitions used in the proofs -/

/-- The address reached from `p` along `w`, when every child on the way exists. -/
def walk (h : Heap) (p : Nat) (w : List Rune) : Option Nat :=
  match w with
  | [] => some p
  | char :: rest =>
    match GoMap.get? (node h p).childs char with
    | none => none
    | some c => walk h c rest

/-- The heap is a tree rooted at address `0`: a child lives at a later address
than its parent, inside the heap, and its `parent` and `letter` fields name the
edge that leads to it. -/
structure TreeShaped (h : Heap) : Prop where
  pos : 0 < h.length
  edge : ∀ p c q, GoMap.get? (node h p).childs c = some q →
    p < q ∧ q < h.length ∧ (node h q).parent = some p ∧ (node h q).letter = c

/-- The heap after lines 44-46 ran at `head` for a missing `char`. -/
def withChild (h : Heap) (head : Nat) (char : Rune) : Heap :=
  List.modify (fun n => { n with childs := GoMap.set n.childs char h.length }) head h ++
    [⟨some head, char, false, []⟩]

/-- The cell whose content the tuple assignment of line 83 moves to `p`. -/
def swapIdx (x y : Fin 15) (p : Fin 15 × Fin 15) : Fin 15 × Fin 15 :=
  if p.1 = x ∧ p.2 = y then (y, x) else if p.1 = y ∧ p.2 = x then (x, y) else p

/-! ## Inputs of the worked examples -/

/-- The grid with no tile. -/
def emptyGrid : Fin 15 → Fin 15 → Rune :=
  fun _ _ => ' '

/-- A board that is not its own mirror image: one `'X'` at `board[0][1]`, empty hand. -/
def loneTileBoard : Board :=
  ⟨[], fun x y => if x = 0 ∧ y = 1 then 'X' else ' '⟩

/-- The grid holding the listed tiles `(x, y, letter)`, read as `board[x][y] = letter`,
and nothing else. -/
def gridOf (tiles : List (Nat × Nat × Rune)) : Fin 15 → Fin 15 → Rune :=
  fun x y =>
    match tiles.find? (fun t => t.1 == x.val && t.2.1 == y.val) with
    | some t => t.2.2
    | none => ' '

/-- Scenario A: no tile on the board, hand `{A:1, B:1, C:1}`. -/
def scenarioABoard : Board :=
  ⟨[('A', 1), ('B', 1), ('C', 1)], emptyGrid⟩

/-- Scenario B: `C`, `A`, `T` at `board[7][7]`, `board[8][7]`, `board[9][7]`, hand `{S:1}`. -/
def scenarioBBoard : Board :=
  ⟨[('S', 1)], gridOf [(7, 7, 'C'), (8, 7, 'A'), (9, 7, 'T')]⟩

/-- No tile on the board, hand `{a:1, b:1, c:1}` in lower case. -/
def lowerCaseBoard : Board :=
  ⟨[('a', 1), ('b', 1), ('c', 1)], emptyGrid⟩

/-- The tiles `C`, `A`, `T` at `board[7][7]`, `board[7][8]`, `board[7][9]`, empty hand. -/
def catColumnBoard : Board :=
  ⟨[], gridOf [(7, 7, 'C'), (7, 8, 'A'), (7, 9, 'T')]⟩

/-- One tile `C` at `board[3][3]`, empty hand. -/
def tileCBoard : Board :=
  ⟨[], gridOf [(3, 3, 'C')]⟩

/-- One tile `C` at `board[0][0]`, hand `{E:1}`. -/
def cornerCBoard : Board :=
  ⟨[('E', 1)], gridOf [(0, 0, 'C')]⟩

/-- No tile on the board, hand `{A:1}`. -/
def handABoard : Board :=
  ⟨[('A', 1)], emptyGrid⟩

/-- One tile `c` at `board[7][7]`, hand `{c:1, a:1}`. -/
def tileLowerCBoard : Board :=
  ⟨[('c', 1), ('a', 1)], gridOf [(7, 7, 'c')]⟩

/-- The tiles `c`, `c` at `board[7][7]`, `board[7][8]`, hand `{c:1}`. -/
def doubleCBoard : Board :=
  ⟨[('c', 1)], gridOf [(7, 7, 'c'), (7, 8, 'c')]⟩

/-- One tile `x` at `board[7][6]`, hand `{a:1, b:1}`. -/
def tileXBoard : Board :=
  ⟨[('a', 1), ('b', 1)], gridOf [(7, 6, 'x')]⟩

/-- No tile on the board, hand `{_:1}`. -/
def underscoreBoard : Board :=
  ⟨[('_', 1)], emptyGrid⟩

/-! ## The steps of the search -/

/-- The arguments of one call of the closure `move` that differ from call to call:
`anchored`, `hand`, `head` and `remaining`. -/
structure Step where
  anchored : Bool
  hand : GoMap Int
  head : Nat
  remaining : List Cell
  deriving DecidableEq, Repr

/-- The calls that one step starts with `go move(...)` (lines 171-196), one per
token of `remaining[0]` that passes both tests. -/
def spawns (d : Heap) (s : Step) : List Step :=
  match s.remaining with
  | [] => []
  | cell :: rest =>
    (GoMap.keys cell).flatMap fun char =>
      if (match GoMap.get? s.hand char with
          | none => true
          | some n => n == 0) && !GoMap.has cell 'S' then []
      else
        match GoMap.get? (node d s.head).childs char with
        | none => []
        | some newHead =>
          [⟨GoMap.has cell 'A' || s.anchored, GoMap.set s.hand char (GoMap.getD s.hand char 0 - 1),
            newHead, rest⟩]

/-- The test of line 201, `head.word && anchored && canEnd`, as the step evaluates
it. -/
def sends (d : Heap) (s : Step) : Bool :=
  match s.remaining with
  | [] => (node d s.head).word && s.anchored && true
  | cell :: _ => (node d s.head).word && (GoMap.has cell 'A' || s.anchored) && GoMap.has cell 'E'

/-- The number of calls of `move` in the tree of calls below one call, itself
included. -/
def stepCount (d : Heap) (anchored : Bool) (hand : GoMap Int) (head : Nat)
    (remaining : List Cell) : Nat :=
  match remaining with
  | [] => 1
  | cell :: rest =>
    1 + ((GoMap.keys cell).map fun char =>
      if (match GoMap.get? hand char with
          | none => true
          | some n => n == 0) && !GoMap.has cell 'S' then 0
      else
        match GoMap.get? (node d head).childs char with
        | none => 0
        | some newHead =>
          stepCount d (GoMap.has cell 'A' || anchored)
            (GoMap.set hand char (GoMap.getD hand char 0 - 1)) newHead rest).sum

/-- The 450 calls of `move` of the driver loop of `findAllMoves` (lines 246-247),
each with its move record, in the order of the loop, two per round. Whether the
driver gets to start them is a matter of the send of line 245, see `fire`. -/
def topCalls (d : Heap) (b : Board) : List (Move × Step) :=
  let rc := getRowsAndCols d b
  (List.range 15).flatMap fun i => (List.range 15).flatMap fun j =>
    [((⟨i, j, true, []⟩ : Move), (⟨false, rc.2.2.hand, 0, (rc.2.1.getD i []).drop j⟩ : Step)),
     ((⟨j, i, false, []⟩ : Move), (⟨false, rc.2.2.hand, 0, (rc.1.getD i []).drop j⟩ : Step))]

/-- The number of calls of `move` that one call of `findAllMoves` starts in all. -/
def totalSteps (d : Heap) (b : Board) : Nat :=
  ((topCalls d b).map fun c =>
    stepCount d c.2.anchored c.2.hand c.2.head c.2.remaining).sum

/-! ## Reading a move back -/

/-- The letters of a move with each `'_'` replaced by the letter the board holds at
that position, `(x + i, y)` for an across move and `(x, y + i)` for a down move;
`i` is the index of the first letter of the list. -/
def restore (b : Board) (x y : Int) (down : Bool) : Int → List Rune → List Rune
  | _, [] => []
  | i, l :: rest =>
    (if l = '_' then b.cell (if down then x else x + i) (if down then y + i else y) else l) ::
      restore b x y down (i + 1) rest

/-- The word a move spells on the board. -/
def spelled (b : Board) (m : Move) : List Rune :=
  restore b m.x m.y m.down 0 m.letters

/-! ## Reads of the grid with the index check of the runtime -/

/-- The read `b.board[x][y]` as the Go runtime performs it: `none` stands for the
panic on an index outside `0..14`. -/
def Board.cell? (b : Board) (x y : Int) : Option Rune :=
  if h : 0 ≤ x ∧ x < 15 ∧ 0 ≤ y ∧ y < 15 then
    some (b.board ⟨x.toNat, by omega⟩ ⟨y.toNat, by omega⟩)
  else none

/-- The loop of line 134 with checked reads; the read is only made when
`onBoard(x - mx - 1)` holds, as `&&` prescribes. -/
def wordStart? (b : Board) (x y : Int) : Nat → Int → Option Int
  | 0, mx => some mx
  | fuel + 1, mx =>
    if onBoard [x - mx - 1] then
      match b.cell? (x - mx - 1) y with
      | none => none
      | some ch => if ch != ' ' then wordStart? b x y fuel (mx + 1) else some mx
    else some mx

/-- The loop of lines 136-138 with checked reads. -/
def wordFrom? (b : Board) (x y mx : Int) : Nat → Int → Option (List Rune)
  | 0, _ => some []
  | fuel + 1, l =>
    if onBoard [x - mx + l] then
      match b.cell? (x - mx + l) y with
      | none => none
      | some ch =>
        if ch != ' ' || l == mx then (wordFrom? b x y mx fuel (l + 1)).map (ch :: ·)
        else some []
    else some []

/-- The test `!onBoard(x) || b.board[x][y] == ' '` of lines 124 and 125 with a
checked read. -/
def emptyAt? (b : Board) (x y : Int) : Option Bool :=
  if !onBoard [x] then some true else (b.cell? x y).map (· == ' ')

/-- The body of the double loop of `getCols` with checked reads: `none` when some
read of `b.board` is out of range. -/
def colsCell? (d : Heap) (b : Board) (x y : Int) : Option Cell :=
  match b.cell? x y with
  | none => none
  | some ch =>
    if ch != ' ' then
      some (GoMap.set (GoMap.set (GoMap.set ([] : Cell) ch 1) 'A' 0) 'S' 0)
    else
      let c0 := GoMap.set ([] : Cell) 'E' 0
      let constrained : Option Cell :=
        match wordStart? b x y 15 0 with
        | none => none
        | some mx =>
          match wordFrom? b x y mx 15 0 with
          | none => none
          | some word =>
            some ((GoMap.keys b.hand).foldl
              (fun c char =>
                if verify d 0 (word.set mx.toNat char) then GoMap.set c char 1 else c)
              (GoMap.set c0 'A' 0))
      match emptyAt? b (x - 1) y with
      | none => none
      | some false => constrained
      | some true =>
        match emptyAt? b (x + 1) y with
        | none => none
        | some false => constrained
        | some true => some ((GoMap.keys b.hand).foldl (fun c char => GoMap.set c char 1) c0)

/-! ## The counting protocol of `findAllMoves`

The goroutines of `findAllMoves` meet on two unbuffered channels. A send on
`threadCount` completes only when the monitor goroutine of lines 230-239 receives
it; once the monitor has returned nobody receives, and such a send blocks for
ever. A send on `movech` completes only when the loop of lines 252-254 receives
it, which the main goroutine reaches after the driver loop of lines 241-249. -/

/-- A goroutine running `move`: its move record `m`, its arguments, the number of
branches it has started so far (lines 194-195) and whether it has sent its move
(line 221). -/
structure Task where
  m : Move
  s : Step
  started : Nat
  sent : Bool
  deriving DecidableEq, Repr

/-- The state of a run of `findAllMoves` after `getRowsAndCols` has returned:
`rounds` counts the rounds of the driver loop (lines 241-249) that have passed
line 245, `tasks` are the goroutines running `move`, `total` is the variable `i`
of the monitor, `closed` says that the monitor has closed `movech` and returned,
`moves` is the slice of lines 251-254. -/
structure Sys where
  rounds : Nat
  tasks : List Task
  total : Int
  closed : Bool
  moves : List Move
  deriving DecidableEq, Repr

/-- What can happen next in a run. `driverSend`: the driver completes
`threadCount <- 2` and starts its two searches (lines 245-247). `spawn k`: the
goroutine at position `k` completes `threadCount <- 1` and starts its next branch
(lines 194-195). `emit k`: it completes `movech <- move` (line 221). `done k`: it
completes `threadCount <- -1` (line 224) and ends. -/
inductive Event where
  | driverSend
  | spawn (k : Nat)
  | emit (k : Nat)
  | done (k : Nat)
  deriving DecidableEq, Repr

/-- The monitor receives `v` (lines 233-237): `i += v`, and when `i == 0` it closes
`movech` and returns. -/
def monitor (st : Sys) (v : Int) : Sys :=
  { st with total := st.total + v, closed := st.total + v == 0 }

/-- The state before the first round of the driver loop, the monitor waiting with
`i = 0`. -/
def startSys : Sys :=
  ⟨0, [], 0, false, []⟩

/-- One event of a run, `none` when the event cannot happen in the state. `calls`
are the top-level calls in the order of the driver loop, two per round; `b` is the
board the searches read. No send on `threadCount` completes after the monitor has
returned; `movech <- move` completes only while the main goroutine is in the loop
of lines 252-254 and the channel is open. -/
def fire (d : Heap) (b : Board) (calls : List (Move × Step)) (st : Sys) : Event → Option Sys
  | .driverSend =>
    if st.rounds < 225 ∧ st.closed = false then
      some { monitor st 2 with
        rounds := st.rounds + 1
        tasks := st.tasks ++
          ((calls.drop (2 * st.rounds)).take 2).map fun c => (⟨c.1, c.2, 0, false⟩ : Task) }
    else none
  | .spawn k =>
    match st.tasks[k]? with
    | none => none
    | some t =>
      match (spawns d t.s)[t.started]? with
      | none => none
      | some child =>
        if st.closed = false then
          some { monitor st 1 with
            tasks := st.tasks.set k { t with started := t.started + 1 } ++
              [(⟨t.m, child, 0, false⟩ : Task)] }
        else none
  | .emit k =>
    match st.tasks[k]? with
    | none => none
    | some t =>
      if t.started = (spawns d t.s).length ∧ sends d t.s = true ∧ t.sent = false ∧
          st.rounds = 225 ∧ st.closed = false then
        some { st with
          tasks := st.tasks.set k { t with sent := true }
          moves := st.moves ++ [emitted d b t.m t.s.head] }
      else none
  | .done k =>
    match st.tasks[k]? with
    | none => none
    | some t =>
      if t.started = (spawns d t.s).length ∧ (sends d t.s = true → t.sent = true) ∧
          st.closed = false then
        some { monitor st (-1) with tasks := st.tasks.eraseIdx k }
      else none

/-- A run: the events of a schedule one after the other, `none` when one of them
cannot happen. -/
def run (d : Heap) (b : Board) (calls : List (Move × Step)) (st : Sys) : List Event → Option Sys
  | [] => some st
  | e :: rest =>
    match fire d b calls st e with
    | none => none
    | some st1 => run d b calls st1 rest

/-- The slice that `findAllMoves` returns (line 256): the loop of lines 252-254 ends
when `movech` is closed, and the main goroutine reaches it only after the 225
rounds of the driver loop. -/
def returned (st : Sys) : Option (List Move) :=
  if st.rounds = 225 ∧ st.closed = true then some st.moves else none

/-- The runs of `findAllMoves d b`: the schedule `es` played from the start, on the
board and with the tables that `getRowsAndCols` leaves. -/
def protocolRun (d : Heap) (b : Board) (es : List Event) : Option Sys :=
  run d (getRowsAndCols d b).2.2 (topCalls d b) startSys es

/-- The schedule that lets the driver finish its loop first and then always lets
the first goroutine of the list act: its next event. -/
def nextEvent (d : Heap) (st : Sys) : Option Event :=
  if st.rounds < 225 then some .driverSend
  else
    match st.tasks with
    | [] => none
    | t :: _ =>
      if t.started < (spawns d t.s).length then some (.spawn 0)
      else if sends d t.s = true ∧ t.sent = false then some (.emit 0)
      else some (.done 0)

/-- The run under the schedule of `nextEvent`, for at most `fuel` events. -/
def runInOrder (d : Heap) (b : Board) (calls : List (Move × Step)) : Nat → Sys → Sys
  | 0, st => st
  | fuel + 1, st =>
    match nextEvent d st with
    | none => st
    | some e =>
      match fire d b calls st e with
      | none => st
      | some st1 => runInOrder d b calls fuel st1

/-! ## Maps -/

theorem GoMap.get?_set_same {V : Type} (m : GoMap V) (k : Rune) (v : V) :
    GoMap.get? (GoMap.set m k v) k = some v := by
  induction m with
  | nil => simp [GoMap.set, GoMap.get?]
  | cons p rest ih =>
    obtain ⟨k', v'⟩ := p
    by_cases hk : k' = k
    · simp [GoMap.set, GoMap.get?, hk]
    · simp [GoMap.set, GoMap.get?, hk, ih]

theorem GoMap.get?_set_other {V : Type} (m : GoMap V) (k k' : Rune) (v : V) (hne : k' ≠ k) :
    GoMap.get? (GoMap.set m k v) k' = GoMap.get? m k' := by
  induction m with
  | nil => simp [GoMap.set, GoMap.get?, Ne.symm hne]
  | cons p rest ih =>
    obtain ⟨k1, v1⟩ := p
    by_cases hk : k1 = k
    · subst hk
      simp [GoMap.set, GoMap.get?, Ne.symm hne]
    · by_cases hk' : k1 = k'
      · subst hk'
        simp [GoMap.set, GoMap.get?, hk]
      · simp [GoMap.set, GoMap.get?, hk, hk', ih]

/-! ## Heap reads after a write -/

theorem node_of_le (h : Heap) (p : Nat) (hp : h.length ≤ p) : node h p = rootNode := by
  simp [node, List.getElem?_eq_none hp]

theorem node_modify_same (h : Heap) (f : Dawg → Dawg) (p : Nat) (hp : p < h.length) :
    node (List.modify f p h) p = f (node h p) := by
  simp [node, List.getElem?_modify, List.getElem?_eq_getElem hp]

theorem node_modify_other (h : Heap) (f : Dawg → Dawg) (p q : Nat) (hne : p ≠ q) :
    node (List.modify f p h) q = node h q := by
  simp [node, List.getElem?_modify_ne f h hne]

theorem node_append_old (h : Heap) (n : Dawg) (q : Nat) (hq : q < h.length) :
    node (h ++ [n]) q = node h q := by
  simp [node, List.getElem?_append_left hq]

theorem node_append_new (h : Heap) (n : Dawg) : node (h ++ [n]) h.length = n := by
  simp [node]

/-! ## Shape of the heap -/

theorem verify_eq_walk (h : Heap) (p : Nat) (w : List Rune) :
    verify h p w = match walk h p w with
      | some q => (node h q).word
      | none => false := by
  induction w generalizing p with
  | nil => simp [verify, walk]
  | cons char rest ih =>
    cases hc : GoMap.get? (node h p).childs char with
    | none => simp [verify, walk, hc]
    | some c => simp [verify, walk, hc, ih]

theorem walk_append (h : Heap) (p : Nat) (u v : List Rune) :
    walk h p (u ++ v) = (walk h p u).bind fun q => walk h q v := by
  induction u generalizing p with
  | nil => simp [walk]
  | cons char rest ih =>
    cases hc : GoMap.get? (node h p).childs char with
    | none => simp [walk, hc]
    | some c => simp [walk, hc, ih]

theorem walk_le {h : Heap} (ht : TreeShaped h) (p q : Nat) (w : List Rune)
    (hw : walk h p w = some q) : p ≤ q ∧ (w ≠ [] → p < q) := by
  induction w generalizing p with
  | nil =>
    simp [walk] at hw
    subst hw
    simp
  | cons char rest ih =>
    cases hc : GoMap.get? (node h p).childs char with
    | none => simp [walk, hc] at hw
    | some c =>
      simp only [walk, hc] at hw
      have h1 := (ht.edge p char c hc).1
      have h2 := (ih c hw).1
      exact ⟨by omega, fun _ => by omega⟩

theorem walk_lt_length {h : Heap} (ht : TreeShaped h) (p q : Nat) (w : List Rune)
    (hp : p < h.length) (hw : walk h p w = some q) : q < h.length := by
  induction w generalizing p with
  | nil =>
    simp [walk] at hw
    omega
  | cons char rest ih =>
    cases hc : GoMap.get? (node h p).childs char with
    | none => simp [walk, hc] at hw
    | some c =>
      simp only [walk, hc] at hw
      exact ih c (ht.edge p char c hc).2.1 hw

/-- Two walks from the root that end at the same node spell the same word. -/
theorem walk_inj {h : Heap} (ht : TreeShaped h) (w1 w2 : List Rune) (q : Nat)
    (h1 : walk h 0 w1 = some q) (h2 : walk h 0 w2 = some q) : w1 = w2 := by
  induction w1 using List.reverseRecOn generalizing w2 q with
  | nil =>
    simp [walk] at h1
    subst h1
    by_contra hne
    have := (walk_le ht 0 0 w2 h2).2 (fun e => hne e.symm)
    omega
  | append_singleton u1 c1 ih =>
    rcases List.eq_nil_or_concat w2 with rfl | ⟨u2, c2, rfl⟩
    · simp [walk] at h2
      subst h2
      have := (walk_le ht 0 0 (u1 ++ [c1]) h1).2 (by simp)
      omega
    · rw [List.concat_eq_append] at h2 ⊢
      rw [walk_append] at h1 h2
      cases hp1 : walk h 0 u1 with
      | none => simp [hp1] at h1
      | some p1 =>
        cases hp2 : walk h 0 u2 with
        | none => simp [hp2] at h2
        | some p2 =>
          simp only [hp1, hp2, Option.some_bind, walk] at h1 h2
          cases hc1 : GoMap.get? (node h p1).childs c1 with
          | none => simp [hc1] at h1
          | some q1 =>
            cases hc2 : GoMap.get? (node h p2).childs c2 with
            | none => simp [hc2] at h2
            | some q2 =>
              simp only [hc1, hc2, Option.some.injEq] at h1 h2
              have e1 := ht.edge p1 c1 q1 hc1
              have e2 := ht.edge p2 c2 q2 hc2
              rw [h1] at e1
              rw [h2] at e2
              have hp : p1 = p2 := by
                have := e1.2.2.1.symm.trans e2.2.2.1
                simpa using this
              have hc : c1 = c2 := e1.2.2.2.symm.trans e2.2.2.2
              subst hp
              subst hc
              rw [ih u2 p1 hp1 hp2]

/-! ## Allocation of a child -/

theorem descend_none (h : Heap) (head : Nat) (char : Rune)
    (hc : GoMap.get? (node h head).childs char = none) :
    descend (h, head) char = (withChild h head char, h.length) := by
  simp [descend, hc, withChild]

theorem descend_some (h : Heap) (head : Nat) (char : Rune) (c : Nat)
    (hc : GoMap.get? (node h head).childs char = some c) :
    descend (h, head) char = (h, c) := by
  simp [descend, hc]

theorem length_withChild (h : Heap) (head : Nat) (char : Rune) :
    (withChild h head char).length = h.length + 1 := by
  simp [withChild]

theorem node_withChild_new (h : Heap) (head : Nat) (char : Rune) :
    node (withChild h head char) h.length = ⟨some head, char, false, []⟩ := by
  have := node_append_new
    (List.modify (fun n => { n with childs := GoMap.set n.childs char h.length }) head h)
    ⟨some head, char, false, []⟩
  simpa [withChild] using this

theorem node_withChild_head (h : Heap) (head : Nat) (char : Rune) (hp : head < h.length) :
    node (withChild h head char) head =
      { node h head with childs := GoMap.set (node h head).childs char h.length } := by
  unfold withChild
  rw [node_append_old _ _ _ (by simpa using hp), node_modify_same _ _ _ hp]

theorem node_withChild_other (h : Heap) (head : Nat) (char : Rune) (q : Nat)
    (hq : q < h.length) (hne : head ≠ q) :
    node (withChild h head char) q = node h q := by
  unfold withChild
  rw [node_append_old _ _ _ (by simpa using hq), node_modify_other _ _ _ _ hne]

theorem node_withChild_fields (h : Heap) (head : Nat) (char : Rune) (q : Nat)
    (hp : head < h.length) (hq : q < h.length) :
    (node (withChild h head char) q).parent = (node h q).parent ∧
    (node (withChild h head char) q).letter = (node h q).letter ∧
    (node (withChild h head char) q).word = (node h q).word := by
  by_cases hne : head = q
  · subst hne
    simp [node_withChild_head h head char hp]
  · simp [node_withChild_other h head char q hq hne]

/-- The children seen from an old node after the allocation. -/
theorem childs_withChild (h : Heap) (head : Nat) (char : Rune) (p : Nat) (c : Rune)
    (hp : head < h.length) (hq : p < h.length)
    (hc : GoMap.get? (node h head).childs char = none) :
    GoMap.get? (node (withChild h head char) p).childs c =
      if p = head ∧ c = char then some h.length else GoMap.get? (node h p).childs c := by
  by_cases hne : head = p
  · subst hne
    rw [node_withChild_head h head char hp]
    by_cases hcc : c = char
    · subst hcc
      simp [GoMap.get?_set_same]
    · simp [GoMap.get?_set_other _ _ _ _ hcc, hcc]
  · rw [node_withChild_other h head char p hq hne]
    have : ¬ p = head := fun e => hne e.symm
    simp [this]

theorem childs_withChild_new (h : Heap) (head : Nat) (char : Rune) (p : Nat) (c : Rune)
    (hq : h.length ≤ p) :
    GoMap.get? (node (withChild h head char) p).childs c = none := by
  rcases Nat.eq_or_lt_of_le hq with e | e
  · subst e
    simp [node_withChild_new, GoMap.get?]
  · rw [node_of_le _ _ (by rw [length_withChild]; omega)]
    simp [rootNode, GoMap.get?]

theorem treeShaped_withChild {h : Heap} (ht : TreeShaped h) (head : Nat) (char : Rune)
    (hp : head < h.length) (hc : GoMap.get? (node h head).childs char = none) :
    TreeShaped (withChild h head char) := by
  refine ⟨by rw [length_withChild]; omega, ?_⟩
  intro p c q hq
  rw [length_withChild]
  by_cases hlt : p < h.length
  · rw [childs_withChild h head char p c hp hlt hc] at hq
    by_cases hnew : p = head ∧ c = char
    · simp only [hnew, and_self, if_true, Option.some.injEq] at hq
      subst hq
      obtain ⟨rfl, rfl⟩ := hnew
      simp [node_withChild_new, hp]
    · simp only [hnew, if_false] at hq
      obtain ⟨e1, e2, e3, e4⟩ := ht.edge p c q hq
      obtain ⟨f1, f2, _⟩ := node_withChild_fields h head char q hp e2
      exact ⟨e1, by omega, by rw [f1, e3], by rw [f2, e4]⟩
  · rw [childs_withChild_new h head char p c (by omega)] at hq
    cases hq

theorem verify_withChild_new (h : Heap) (head : Nat) (char : Rune) (w : List Rune) :
    verify (withChild h head char) h.length w = false := by
  cases w with
  | nil => simp [verify, node_withChild_new]
  | cons a r => simp [verify, childs_withChild_new h head char h.length a (le_refl _)]

theorem verify_withChild {h : Heap} (ht : TreeShaped h) (head : Nat) (char : Rune)
    (hp : head < h.length) (hc : GoMap.get? (node h head).childs char = none)
    (p : Nat) (hq : p < h.length) (w : List Rune) :
    verify (withChild h head char) p w = verify h p w := by
  induction w generalizing p with
  | nil => simp [verify, (node_withChild_fields h head char p hp hq).2.2]
  | cons a r ih =>
    simp only [verify]
    rw [childs_withChild h head char p a hp hq hc]
    by_cases hnew : p = head ∧ a = char
    · obtain ⟨rfl, rfl⟩ := hnew
      simp [hc, verify_withChild_new]
    · simp only [hnew, if_false]
      cases hg : GoMap.get? (node h p).childs a with
      | none => rfl
      | some c => exact ih c (ht.edge p a c hg).2.1

theorem walk_withChild {h : Heap} (ht : TreeShaped h) (head : Nat) (char : Rune)
    (hp : head < h.length) (hc : GoMap.get? (node h head).childs char = none)
    (p : Nat) (hq : p < h.length) (w : List Rune) (q : Nat) (hw : walk h p w = some q) :
    walk (withChild h head char) p w = some q := by
  induction w generalizing p with
  | nil => simpa [walk] using hw
  | cons a r ih =>
    cases hg : GoMap.get? (node h p).childs a with
    | none => simp [walk, hg] at hw
    | some c =>
      simp only [walk, hg] at hw
      have hnew : ¬ (p = head ∧ a = char) := by
        rintro ⟨rfl, rfl⟩
        rw [hc] at hg
        cases hg
      simp only [walk]
      rw [childs_withChild h head char p a hp hq hc]
      simp only [hnew, if_false, hg]
      exact ih c (ht.edge p a c hg).2.1 hw

/-! ## Reading one line -/

/-- What one round of the inner loop of `readDawg` keeps and what it establishes. -/
theorem descend_spec {h : Heap} (ht : TreeShaped h) (head : Nat) (char : Rune)
    (hp : head < h.length) :
    TreeShaped (descend (h, head) char).1 ∧
    (descend (h, head) char).2 < (descend (h, head) char).1.length ∧
    h.length ≤ (descend (h, head) char).1.length ∧
    (∀ p, p < h.length → ∀ w, verify (descend (h, head) char).1 p w = verify h p w) ∧
    (∀ p, p < h.length → ∀ w q, walk h p w = some q →
      walk (descend (h, head) char).1 p w = some q) ∧
    walk (descend (h, head) char).1 head [char] = some (descend (h, head) char).2 := by
  cases hc : GoMap.get? (node h head).childs char with
  | some c =>
    rw [descend_some h head char c hc]
    refine ⟨ht, (ht.edge head char c hc).2.1, le_refl _, fun _ _ _ => rfl,
      fun _ _ _ _ hw => hw, ?_⟩
    simp [walk, hc]
  | none =>
    rw [descend_none h head char hc]
    refine ⟨treeShaped_withChild ht head char hp hc, by simp [length_withChild],
      by simp [length_withChild], fun p hq w => verify_withChild ht head char hp hc p hq w,
      fun p hq w q hw => walk_withChild ht head char hp hc p hq w q hw, ?_⟩
    simp [walk, childs_withChild h head char head char hp hp hc]

/-- The inner loop of `readDawg` started at `head`: it ends at the node spelled by
`line` below `head` and changes the answer of `verify` at no old node. -/
theorem foldl_descend_spec (line : List Rune) {h : Heap} (ht : TreeShaped h) (head : Nat)
    (hp : head < h.length) :
    TreeShaped (line.foldl descend (h, head)).1 ∧
    (line.foldl descend (h, head)).2 < (line.foldl descend (h, head)).1.length ∧
    h.length ≤ (line.foldl descend (h, head)).1.length ∧
    (∀ p, p < h.length → ∀ w, verify (line.foldl descend (h, head)).1 p w = verify h p w) ∧
    (∀ p, p < h.length → ∀ w q, walk h p w = some q →
      walk (line.foldl descend (h, head)).1 p w = some q) ∧
    walk (line.foldl descend (h, head)).1 head line = some (line.foldl descend (h, head)).2 := by
  induction line generalizing h head with
  | nil => exact ⟨ht, hp, le_refl _, fun _ _ _ => rfl, fun _ _ _ _ hw => hw, rfl⟩
  | cons a rest ih =>
    obtain ⟨t1, l1, g1, v1, w1, s1⟩ := descend_spec ht head a hp
    rw [List.foldl_cons]
    rcases hd : descend (h, head) a with ⟨h1, head1⟩
    rw [hd] at t1 l1 g1 v1 w1 s1
    simp only at t1 l1 g1 v1 w1 s1
    obtain ⟨t2, l2, g2, v2, w2, s2⟩ := ih t1 head1 l1
    refine ⟨t2, l2, by omega, ?_, ?_, ?_⟩
    · intro p hq w
      rw [v2 p (by omega) w, v1 p hq w]
    · intro p hq w q hw
      exact w2 p (by omega) w q (w1 p hq w q hw)
    · have e : a :: rest = [a] ++ rest := rfl
      rw [e, walk_append, w2 head (by omega) [a] head1 s1]
      exact s2

/-! ## Setting the word flag -/

theorem node_setWord (h : Heap) (p q : Nat) (hp : p < h.length) :
    node (List.modify (fun n => { n with word := true }) p h) q =
      if q = p then { node h p with word := true } else node h q := by
  by_cases e : q = p
  · subst e
    simp [node_modify_same _ _ _ hp]
  · simp [e, node_modify_other _ _ _ _ (fun e' => e e'.symm)]

theorem treeShaped_setWord {h : Heap} (ht : TreeShaped h) (p : Nat) (hp : p < h.length) :
    TreeShaped (List.modify (fun n => { n with word := true }) p h) := by
  have fields : ∀ q, (node (List.modify (fun n => { n with word := true }) p h) q).childs =
        (node h q).childs ∧
      (node (List.modify (fun n => { n with word := true }) p h) q).parent = (node h q).parent ∧
      (node (List.modify (fun n => { n with word := true }) p h) q).letter = (node h q).letter := by
    intro q
    rw [node_setWord h p q hp]
    by_cases e : q = p
    · subst e
      simp
    · simp [e]
  refine ⟨by simpa using ht.pos, ?_⟩
  intro a c q hq
  rw [(fields a).1] at hq
  obtain ⟨e1, e2, e3, e4⟩ := ht.edge a c q hq
  exact ⟨e1, by simpa using e2, by rw [(fields q).2.1, e3], by rw [(fields q).2.2, e4]⟩

theorem walk_setWord (h : Heap) (p : Nat) (hp : p < h.length) (a : Nat) (w : List Rune) :
    walk (List.modify (fun n => { n with word := true }) p h) a w = walk h a w := by
  have childs : ∀ q, (node (List.modify (fun n => { n with word := true }) p h) q).childs =
      (node h q).childs := by
    intro q
    rw [node_setWord h p q hp]
    by_cases e : q = p
    · subst e
      simp
    · simp [e]
  induction w generalizing a with
  | nil => rfl
  | cons c r ih =>
    simp only [walk, childs a]
    cases GoMap.get? (node h a).childs c with
    | none => rfl
    | some q => exact ih q

/-- After one more line has been read, `verify` accepts that line and whatever it
accepted before, and nothing else. -/
theorem verify_insertLine {h : Heap} (ht : TreeShaped h) (line w : List Rune) :
    verify (insertLine h line) 0 w = (verify h 0 w || decide (w = line)) := by
  obtain ⟨t, l, _, v, _, s⟩ := foldl_descend_spec line ht 0 ht.pos
  unfold insertLine
  simp only
  rw [verify_eq_walk, walk_setWord _ _ l, ← v 0 ht.pos w, verify_eq_walk]
  cases hw : walk (line.foldl descend (h, 0)).1 0 w with
  | none =>
    have : w ≠ line := by
      rintro rfl
      rw [s] at hw
      cases hw
    simp [this]
  | some q =>
    simp only [node_setWord _ _ q l]
    by_cases e : q = (line.foldl descend (h, 0)).2
    · have : w = line := walk_inj t w line q hw (e ▸ s)
      simp [e, this]
    · have : w ≠ line := by
        rintro rfl
        rw [s] at hw
        exact e (Option.some.inj hw).symm
      simp [e, this]

theorem treeShaped_insertLine {h : Heap} (ht : TreeShaped h) (line : List Rune) :
    TreeShaped (insertLine h line) := by
  obtain ⟨t, l, _, _, _, _⟩ := foldl_descend_spec line ht 0 ht.pos
  exact treeShaped_setWord t _ l

theorem treeShaped_root : TreeShaped [rootNode] := by
  refine ⟨by simp, ?_⟩
  intro p c q hq
  cases p with
  | zero => simp [node, rootNode, GoMap.get?] at hq
  | succ n => simp [node, rootNode, GoMap.get?] at hq

theorem treeShaped_foldl_insertLine (lines : List (List Rune)) {h : Heap} (ht : TreeShaped h) :
    TreeShaped (lines.foldl insertLine h) := by
  induction lines generalizing h with
  | nil => exact ht
  | cons line rest ih => exact ih (treeShaped_insertLine ht line)

theorem treeShaped_readDawg (lines : List (List Rune)) : TreeShaped (readDawg lines) :=
  treeShaped_foldl_insertLine lines treeShaped_root

theorem verify_foldl_insertLine (lines : List (List Rune)) {h : Heap} (ht : TreeShaped h)
    (w : List Rune) :
    verify (lines.foldl insertLine h) 0 w = true ↔ verify h 0 w = true ∨ w ∈ lines := by
  induction lines generalizing h with
  | nil => simp
  | cons line rest ih =>
    rw [List.foldl_cons, ih (treeShaped_insertLine ht line), verify_insertLine ht]
    simp only [Bool.or_eq_true, decide_eq_true_eq, List.mem_cons]
    tauto

theorem verify_root (w : List Rune) : verify [rootNode] 0 w = false := by
  cases w with
  | nil => simp [verify, node, rootNode]
  | cons a r => simp [verify, node, rootNode, GoMap.get?]

/-- C1. For the tree that `readDawg` builds from the lines `L`, `verify` from the
root accepts a string exactly when it is one of the lines: every inserted word is
accepted, and a string that was not inserted (a proper prefix of an inserted word
included) is rejected. -/
theorem verify_readDawg_iff_mem (L : List (List Rune)) (w : List Rune) :
    verify (readDawg L) 0 w = true ↔ w ∈ L := by
  unfold readDawg
  rw [verify_foldl_insertLine L treeShaped_root w, verify_root]
  simp

/-! ## The transposition loops -/

theorem swapCells_eq (g : Fin 15 → Fin 15 → Rune) (x y a c : Fin 15) :
    swapCells g x y a c = g (swapIdx x y (a, c)).1 (swapIdx x y (a, c)).2 := by
  unfold swapCells swapIdx
  by_cases h1 : a = x ∧ c = y
  · simp [h1]
  · by_cases h2 : a = y ∧ c = x
    · obtain ⟨rfl, rfl⟩ := h2
      simp [h1]
    · simp [h1, h2]

theorem foldl_swapCells (ys : List (Fin 15)) (g : Fin 15 → Fin 15 → Rune) (x a c : Fin 15) :
    ys.foldl (fun g y => swapCells g x y) g a c =
      g (ys.foldr (fun y r => swapIdx x y r) (a, c)).1
        (ys.foldr (fun y r => swapIdx x y r) (a, c)).2 := by
  induction ys generalizing g with
  | nil => rfl
  | cons y rest ih =>
    rw [List.foldl_cons, ih, swapCells_eq]
    rfl

theorem foldl_transRow (xs : List (Fin 15)) (g : Fin 15 → Fin 15 → Rune) (a c : Fin 15) :
    xs.foldl transRow g a c =
      g (xs.foldr (fun x q => (List.finRange 15).foldr (fun y r => swapIdx x y r) q) (a, c)).1
        (xs.foldr (fun x q => (List.finRange 15).foldr (fun y r => swapIdx x y r) q) (a, c)).2 := by
  induction xs generalizing g with
  | nil => rfl
  | cons x rest ih =>
    rw [List.foldl_cons, ih]
    unfold transRow
    rw [foldl_swapCells]
    simp only [List.foldr_cons, Prod.mk.eta]

/-- The inner loop for one `x` mirrors the cells of row `x` and of column `x` whose
other index the loop has visited, and no other cell. -/
theorem foldr_swapIdx (ys : List (Fin 15)) (hnd : ys.Nodup) (x : Fin 15) (p : Fin 15 × Fin 15) :
    ys.foldr (fun y r => swapIdx x y r) p =
      if (p.1 = x ∧ p.2 ∈ ys) ∨ (p.2 = x ∧ p.1 ∈ ys) then (p.2, p.1) else p := by
  induction ys with
  | nil => simp
  | cons y rest ih =>
    obtain ⟨hy, hrest⟩ := List.nodup_cons.mp hnd
    rw [List.foldr_cons, ih hrest]
    obtain ⟨a, c⟩ := p
    unfold swapIdx
    simp only [List.mem_cons]
    split_ifs <;> simp_all <;> aesop

theorem foldr_swapIdx_all (x : Fin 15) (p : Fin 15 × Fin 15) :
    (List.finRange 15).foldr (fun y r => swapIdx x y r) p =
      if p.1 = x ∨ p.2 = x then (p.2, p.1) else p := by
  rw [foldr_swapIdx _ (List.nodup_finRange 15)]
  simp

/-- After the outer loop has run for the rows in `xs`, a cell is mirrored when
exactly one of its two indices is in `xs`. -/
theorem foldr_transRow_idx (xs : List (Fin 15)) (hnd : xs.Nodup) (p : Fin 15 × Fin 15) :
    xs.foldr (fun x q => (List.finRange 15).foldr (fun y r => swapIdx x y r) q) p =
      if (p.1 ∈ xs ∧ p.2 ∉ xs) ∨ (p.1 ∉ xs ∧ p.2 ∈ xs) then (p.2, p.1) else p := by
  induction xs with
  | nil => simp
  | cons x rest ih =>
    obtain ⟨hx, hrest⟩ := List.nodup_cons.mp hnd
    rw [List.foldr_cons, ih hrest, foldr_swapIdx_all]
    obtain ⟨a, c⟩ := p
    simp only [List.mem_cons]
    split_ifs <;> simp_all <;> aesop

/-- Each pair of cells is exchanged twice, once at `(x, y)` and once at `(y, x)`,
so the loops of `trans` leave every cell as it was. -/
theorem trans_eq_self (b : Board) : b.trans = b := by
  cases b with
  | mk hand board =>
    simp only [Board.trans, Board.mk.injEq, true_and]
    funext a c
    rw [foldl_transRow, foldr_transRow_idx _ (List.nodup_finRange 15)]
    simp

set_option maxRecDepth 100000 in
/-- C2. On the board whose only tile is an `'X'` at `board[0][1]`, `trans` leaves
`board[1][0]` empty and the `'X'` where it was, and the table `rows` of
`getRowsAndCols` describes at `[1][0]` the empty cell `board[1][0]` (a bare End
flag), not the tile at `board[0][1]`, whose set is found at `cols[0][1]`. -/
theorem trans_loneTileBoard :
    loneTileBoard.board 0 1 = 'X' ∧
    loneTileBoard.trans.board 1 0 = ' ' ∧
    loneTileBoard.trans.board 0 1 = 'X' ∧
    ((getRowsAndCols (readDawg []) loneTileBoard).1.getD 1 []).getD 0 [] = [('E', 0)] ∧
    ((getCols (readDawg []) loneTileBoard).getD 0 []).getD 1 [] =
      [('X', 1), ('A', 0), ('S', 0)] := by
  simp only [getRowsAndCols, trans_eq_self]
  decide

/-- C3. Running `trans` twice gives the board back, and `getRowsAndCols` leaves the
board, grid and hand, as it found it. -/
theorem trans_trans_and_getRowsAndCols_restore (d : Heap) (b : Board) :
    b.trans.trans = b ∧ (getRowsAndCols d b).2.2 = b := by
  simp [getRowsAndCols, trans_eq_self]

/-! ## The loop bounds of `getCols` are never reached -/

theorem onBoard_singleton (x : Int) : onBoard [x] = decide (0 ≤ x ∧ x < 15) := by
  by_cases h : x < 0 ∨ 15 ≤ x
  · have : ¬ (0 ≤ x ∧ x < 15) := by omega
    simp [onBoard, h, this]
  · have : 0 ≤ x ∧ x < 15 := by omega
    simp [onBoard, h, this]

/-- More rounds than `x - mx + 1` change nothing: the loop of line 134 has left by
its own test. -/
theorem wordStart_fuel (b : Board) (x y : Int) (fuel k : Nat) (mx : Int)
    (h : x - mx < fuel) : wordStart b x y (fuel + k) mx = wordStart b x y fuel mx := by
  induction fuel generalizing mx with
  | zero =>
    have hoff : onBoard [x - mx - 1] = false := by
      rw [onBoard_singleton]
      simp only [decide_eq_false_iff_not]
      simp only [Nat.cast_zero] at h
      omega
    cases k with
    | zero => rfl
    | succ k => simp [wordStart, hoff]
  | succ n ih =>
    have e : n + 1 + k = (n + k) + 1 := by omega
    rw [e]
    simp only [wordStart]
    rw [ih (mx + 1) (by push_cast at h; omega)]

theorem wordStart_le (b : Board) (x y : Int) (fuel : Nat) (mx : Int) (h : mx ≤ x) :
    wordStart b x y fuel mx ≤ x := by
  induction fuel generalizing mx with
  | zero => simpa [wordStart] using h
  | succ n ih =>
    simp only [wordStart]
    split
    · rename_i hc
      simp only [Bool.and_eq_true, onBoard_singleton, decide_eq_true_eq] at hc
      exact ih (mx + 1) (by omega)
    · exact h

/-- More rounds than cells left on the board change nothing: the loop of lines
136-138 has left by its own test. -/
theorem wordFrom_fuel (b : Board) (x y mx : Int) (fuel k : Nat) (l : Int)
    (h : 15 - (x - mx + l) ≤ fuel) :
    wordFrom b x y mx (fuel + k) l = wordFrom b x y mx fuel l := by
  induction fuel generalizing l with
  | zero =>
    have hoff : onBoard [x - mx + l] = false := by
      rw [onBoard_singleton]
      simp only [decide_eq_false_iff_not]
      simp only [Nat.cast_zero] at h
      omega
    cases k with
    | zero => rfl
    | succ k => simp [wordFrom, hoff]
  | succ n ih =>
    have e : n + 1 + k = (n + k) + 1 := by omega
    rw [e]
    simp only [wordFrom]
    rw [ih (l + 1) (by push_cast at h; omega)]

/-- On the board, the bound `15` that `colsCell` gives both loops is enough. -/
theorem colsCell_fuel (b : Board) (x y : Int) (hx : 0 ≤ x ∧ x < 15) (k : Nat) :
    wordStart b x y (15 + k) 0 = wordStart b x y 15 0 ∧
    wordFrom b x y (wordStart b x y 15 0) (15 + k) 0 =
      wordFrom b x y (wordStart b x y 15 0) 15 0 := by
  refine ⟨wordStart_fuel b x y 15 k 0 (by push_cast; omega), ?_⟩
  have := wordStart_le b x y 15 0 hx.1
  exact wordFrom_fuel b x y _ 15 k 0 (by push_cast; omega)

/-! ## The search on concrete inputs -/

/-- Since `trans` changes nothing, `getRowsAndCols` returns the table of the
untransposed board twice, and the across searches of `findAllMoves` read the same
sets as the down searches. -/
theorem findAllMoves_eq (d : Heap) (b : Board) :
    findAllMoves d b =
      (List.range 15).flatMap fun i => (List.range 15).flatMap fun j =>
        move d b ⟨i, j, true, []⟩ false b.hand 0 (((getCols d b).getD i []).drop j) ++
          move d b ⟨j, i, false, []⟩ false b.hand 0 (((getCols d b).getD i []).drop j) := by
  simp only [findAllMoves, getRowsAndCols, trans_eq_self]

set_option maxRecDepth 100000 in
/-- C4. In scenario A (empty board, hand `{A:1, B:1, C:1}`, dictionary `CAB`)
`findAllMoves` returns `CAB` at every origin from which three cells fit on the
board, 195 down and 195 across, the move down from `(0, 0)` among them: the hand
letter `A` is stored under the key that also means Anchor, so every cell counts
as an anchor. -/
theorem findAllMoves_scenarioA :
    findAllMoves (readDawg [['C', 'A', 'B']]) scenarioABoard =
      ((List.range 15).flatMap fun i => (List.range 13).flatMap fun j =>
        [(⟨i, j, true, ['C', 'A', 'B']⟩ : Move), ⟨j, i, false, ['C', 'A', 'B']⟩]) ∧
    (findAllMoves (readDawg [['C', 'A', 'B']]) scenarioABoard).length = 390 ∧
    (⟨0, 0, true, ['C', 'A', 'B']⟩ : Move) ∈
      findAllMoves (readDawg [['C', 'A', 'B']]) scenarioABoard := by
  rw [findAllMoves_eq]
  decide

set_option maxRecDepth 100000 in
/-- C5. In scenario B (`CAT` across on row 7 from column 7, hand `{S:1}`) with the
dictionary `CATS`, `findAllMoves` returns no move at all, so not the across move
`_ _ _ S` from `(7, 7)`: the across search from `(7, 7)` reads the sets of column 7,
where only the `C` stands. -/
theorem findAllMoves_scenarioB :
    findAllMoves (readDawg [['C', 'A', 'T', 'S']]) scenarioBBoard = [] ∧
    (⟨7, 7, false, ['_', '_', '_', 'S']⟩ : Move) ∉
      findAllMoves (readDawg [['C', 'A', 'T', 'S']]) scenarioBBoard := by
  rw [findAllMoves_eq]
  decide

set_option maxRecDepth 100000 in
/-- C6. On the empty board with hand `{a:1, b:1, c:1}` and dictionary `cab`,
`findAllMoves` returns eight moves; those down from `(7, 4)` and across from
`(4, 7)` span the cells `(7, 4), (7, 5), (7, 6)` and `(4, 7), (5, 7), (6, 7)`, none
of which is the centre: the step that emits them has read the Anchor flag of the
cell after the word. -/
theorem findAllMoves_lowerCase :
    findAllMoves (readDawg [['c', 'a', 'b']]) lowerCaseBoard =
      [⟨7, 4, true, ['c', 'a', 'b']⟩, ⟨4, 7, false, ['c', 'a', 'b']⟩,
       ⟨7, 5, true, ['c', 'a', 'b']⟩, ⟨5, 7, false, ['c', 'a', 'b']⟩,
       ⟨7, 6, true, ['c', 'a', 'b']⟩, ⟨6, 7, false, ['c', 'a', 'b']⟩,
       ⟨7, 7, true, ['c', 'a', 'b']⟩, ⟨7, 7, false, ['c', 'a', 'b']⟩] := by
  rw [findAllMoves_eq]
  decide

/-! ## Letters of an emitted move -/

theorem length_markPlaced (b : Board) (m : Move) (i : Int) (ls : List Rune) :
    (markPlaced b m i ls).length = ls.length := by
  induction ls generalizing i with
  | nil => rfl
  | cons l rest ih => simp [markPlaced, ih]

theorem lettersOf_acc_ne_nil (h : Heap) (fuel p : Nat) (acc : List Rune) (hacc : acc ≠ []) :
    lettersOf h fuel p acc ≠ [] := by
  induction fuel generalizing p acc with
  | zero => simpa [lettersOf] using hacc
  | succ n ih =>
    cases hp : (node h p).parent with
    | none => simpa [lettersOf, hp] using hacc
    | some q =>
      simp only [lettersOf, hp]
      exact ih q _ (by simp)

theorem lettersOf_ne_nil (h : Heap) (fuel p : Nat) (hfuel : 0 < fuel)
    (hp : (node h p).parent ≠ none) : lettersOf h fuel p [] ≠ [] := by
  obtain ⟨n, rfl⟩ := Nat.exists_eq_succ_of_ne_zero (Nat.pos_iff_ne_zero.mp hfuel)
  cases hq : (node h p).parent with
  | none => exact absurd hq hp
  | some q =>
    simp only [lettersOf, hq]
    exact lettersOf_acc_ne_nil h n q _ (by simp)

theorem emitted_letters_ne_nil (d : Heap) (b : Board) (m : Move) (head : Nat)
    (hd : 0 < d.length) (hp : (node d head).parent ≠ none) :
    (emitted d b m head).letters ≠ [] := by
  intro e
  have hl := congrArg List.length e
  simp only [emitted, length_markPlaced, List.length_nil] at hl
  exact lettersOf_ne_nil d d.length head hd hp (List.length_eq_zero.mp hl)

/-- A step standing at a node whose word flag implies a parent only sends moves
with at least one letter, and so do the steps it spawns. -/
theorem move_letters_ne_nil {d : Heap} (ht : TreeShaped d) (b : Board) (m : Move)
    (remaining : List Cell) (anchored : Bool) (hand : GoMap Int) (head : Nat)
    (hp : (node d head).word = true → (node d head).parent ≠ none) :
    ∀ m1 ∈ move d b m anchored hand head remaining, m1.letters ≠ [] := by
  induction remaining generalizing anchored hand head with
  | nil =>
    intro m1 hm
    unfold move at hm
    split at hm
    · rename_i hc
      simp only [List.mem_singleton] at hm
      subst hm
      simp only [Bool.and_true, Bool.and_eq_true] at hc
      exact emitted_letters_ne_nil d b m head ht.pos (hp hc.1)
    · cases hm
  | cons cell rest ih =>
    intro m1 hm
    unfold move at hm
    simp only [List.mem_append, List.mem_flatMap] at hm
    rcases hm with ⟨char, _, hm⟩ | hm
    · split at hm
      · cases hm
      · split at hm
        · cases hm
        · rename_i newHead hc
          refine ih _ _ newHead ?_ m1 hm
          intro _
          rw [(ht.edge head char newHead hc).2.2.1]
          simp
    · split at hm
      · rename_i hc
        simp only [List.mem_singleton] at hm
        subst hm
        simp only [Bool.and_eq_true] at hc
        exact emitted_letters_ne_nil d b m head ht.pos (hp hc.1.1)
      · cases hm

/-- The root carries the word flag only when an empty line was read. -/
theorem root_word_readDawg (L : List (List Rune)) (hw : (node (readDawg L) 0).word = true) :
    ([] : List Rune) ∈ L := by
  have hv : verify (readDawg L) 0 [] = true := by simpa [verify] using hw
  unfold readDawg at hv
  rw [verify_foldl_insertLine L treeShaped_root, verify_root] at hv
  simpa using hv

/-- C7, as amended. When no line of the dictionary is empty, every move that
`findAllMoves` returns has at least one letter (which may be a `'_'` marker). -/
theorem findAllMoves_letters_ne_nil (L : List (List Rune)) (b : Board) (m : Move)
    (hL : ([] : List Rune) ∉ L) (hm : m ∈ findAllMoves (readDawg L) b) : m.letters ≠ [] := by
  have hroot : (node (readDawg L) 0).word = true → (node (readDawg L) 0).parent ≠ none := by
    intro hw
    exact absurd (root_word_readDawg L hw) hL
  rw [findAllMoves_eq] at hm
  simp only [List.mem_flatMap, List.mem_append] at hm
  obtain ⟨i, _, j, _, hm | hm⟩ := hm
  · exact move_letters_ne_nil (treeShaped_readDawg L) b _ _ _ _ 0 hroot m hm
  · exact move_letters_ne_nil (treeShaped_readDawg L) b _ _ _ _ 0 hroot m hm

set_option maxRecDepth 100000 in
/-- C7, the theorem at a concrete input: `cab` down from the centre of the empty
board. -/
theorem findAllMoves_letters_ne_nil_witness :
    ([] : List Rune) ∉ [['c', 'a', 'b']] ∧
    (⟨7, 7, true, ['c', 'a', 'b']⟩ : Move) ∈
      findAllMoves (readDawg [['c', 'a', 'b']]) lowerCaseBoard ∧
    (⟨7, 7, true, ['c', 'a', 'b']⟩ : Move).letters ≠ [] :=
  ⟨by decide, by rw [findAllMoves_eq]; decide,
    findAllMoves_letters_ne_nil [['c', 'a', 'b']] lowerCaseBoard ⟨7, 7, true, ['c', 'a', 'b']⟩
      (by decide) (by rw [findAllMoves_eq]; decide)⟩

set_option maxRecDepth 100000 in
/-- C7, as stated, fails: with `C`, `A`, `T` standing in column 7 from row 7, an empty
hand and the dictionary `CAT`, `findAllMoves` returns the down move from `(7, 7)`
whose three letters are all `'_'`, so it is not true that every returned move has
a letter other than `'_'`; and when the dictionary is one empty line, it returns
on the empty board a move with no letter at all. -/
theorem findAllMoves_catColumn_all_marked :
    (⟨7, 7, true, ['_', '_', '_']⟩ : Move) ∈
      findAllMoves (readDawg [['C', 'A', 'T']]) catColumnBoard ∧
    (¬ ∀ m ∈ findAllMoves (readDawg [['C', 'A', 'T']]) catColumnBoard,
        ∃ l ∈ m.letters, l ≠ '_') ∧
    (⟨7, 7, true, []⟩ : Move) ∈ findAllMoves (readDawg [[]]) ⟨[], emptyGrid⟩ := by
  rw [findAllMoves_eq, findAllMoves_eq]
  decide

/-! ## Keys that are both letters and flags -/

set_option maxRecDepth 100000 in
/-- C8. With one tile `C` at `board[3][3]`, an empty hand and the dictionary `A`,
the set of that cell has the keys `C`, `A` and `S`, the step at the root whose next
cell it is spawns a branch for `A`, and `findAllMoves` returns the one-letter word
`A` laid on the cell that holds `C`. -/
theorem findAllMoves_tileC :
    ((getCols (readDawg [['A']]) tileCBoard).getD 3 []).getD 3 [] =
      [('C', 1), ('A', 0), ('S', 0)] ∧
    move (readDawg [['A']]) tileCBoard ⟨3, 3, true, []⟩ false [] 0
      [[('C', 1), ('A', 0), ('S', 0)]] = [⟨3, 3, true, ['A']⟩] ∧
    findAllMoves (readDawg [['A']]) tileCBoard =
      [⟨3, 3, true, ['A']⟩, ⟨3, 3, false, ['A']⟩] := by
  rw [findAllMoves_eq]
  decide

set_option maxRecDepth 100000 in
/-- C9. With one tile `C` at `board[0][0]`, hand `{E:1}` and the dictionary `E`, the
set of the empty cell `(1, 0)` has the hand letter `E` among its keys although
`verify` rejects `CE`, the run through `(1, 0)` with `E` put there; and
`findAllMoves` returns the move that lays `E` on `(1, 0)`. -/
theorem getCols_cornerC :
    cornerCBoard.cell 1 0 = ' ' ∧ cornerCBoard.cell 0 0 = 'C' ∧
    ((getCols (readDawg [['E']]) cornerCBoard).getD 1 []).getD 0 [] = [('E', 0), ('A', 0)] ∧
    GoMap.has (((getCols (readDawg [['E']]) cornerCBoard).getD 1 []).getD 0 []) 'E' = true ∧
    verify (readDawg [['E']]) 0 ['C', 'E'] = false ∧
    (⟨1, 0, true, ['E']⟩ : Move) ∈ findAllMoves (readDawg [['E']]) cornerCBoard := by
  rw [findAllMoves_eq]
  decide

set_option maxRecDepth 100000 in
/-- C10. On the empty board with hand `{A:1}` the set of the free-floating cell
`(0, 0)` is `{E:0, A:1}`, so the anchor test (key `A` present) succeeds there, as it
does at each of the 225 cells. -/
theorem getCols_handA :
    ((getCols (readDawg []) handABoard).getD 0 []).getD 0 [] = [('E', 0), ('A', 1)] ∧
    GoMap.has (((getCols (readDawg []) handABoard).getD 0 []).getD 0 []) 'A' = true ∧
    (getCols (readDawg []) handABoard).all
      (fun col => col.all fun c => GoMap.has c 'A') = true := by
  decide

/-! ## The centre cell -/

theorem getD_modify_same {α : Type} (l : List α) (f : α → α) (n : Nat) (z : α)
    (hn : n < l.length) : (List.modify f n l).getD n z = f (l.getD n z) := by
  simp [List.getElem?_modify_eq, List.getElem?_eq_getElem hn]

theorem getD_map_range {α : Type} (f : Nat → α) (n k : Nat) (z : α) (hk : k < n) :
    ((List.range n).map f).getD k z = f k := by
  rw [List.getD_eq_getElem?_getD, List.getElem?_map, List.getElem?_range hk]
  rfl

/-- The index list of the loops of `getCols`: the integers `0, ..., 14`. -/
theorem intRange_eq :
    (do let a ← List.range 15; pure (a : Int)) = (List.range 15).map (fun a => (a : Int)) := by
  rfl

/-- The table of `getCols` before the last assignment, cell by cell. -/
theorem getCols_eq (d : Heap) (b : Board) :
    getCols d b =
      List.modify (fun col => List.modify (fun c => GoMap.set c 'A' 0) 7 col) 7
        ((List.range 15).map fun x : Nat =>
          (List.range 15).map fun y : Nat => colsCell d b x y) := by
  unfold getCols
  rw [intRange_eq]
  simp only [List.map_map]
  rfl

theorem has_set_same (c : Cell) (k : Rune) (v : Int) : GoMap.has (GoMap.set c k v) k = true := by
  simp [GoMap.has, GoMap.get?_set_same]

/-- The last assignment of `getCols`, `cols[7][7]['A'] = 0`, leaves the key `A` in
the set of the centre cell. -/
theorem getCols_centre (d : Heap) (b : Board) :
    GoMap.has (((getCols d b).getD 7 []).getD 7 []) 'A' = true := by
  rw [getCols_eq,
    getD_modify_same _ _ 7 [] (by rw [List.length_map, List.length_range]; decide),
    getD_map_range _ 15 7 [] (by decide),
    getD_modify_same _ _ 7 [] (by rw [List.length_map, List.length_range]; decide)]
  exact has_set_same _ 'A' 0

/-- C11. For every dictionary and board, the set that `getCols` stores for the cell
`(7, 7)` has the key `A`, and so has the set at `[7][7]` of each of the two tables
that `getRowsAndCols` returns. -/
theorem getCols_centre_anchor (d : Heap) (b : Board) :
    GoMap.has (((getCols d b).getD 7 []).getD 7 []) 'A' = true ∧
    GoMap.has (((getRowsAndCols d b).1.getD 7 []).getD 7 []) 'A' = true ∧
    GoMap.has (((getRowsAndCols d b).2.1.getD 7 []).getD 7 []) 'A' = true := by
  refine ⟨getCols_centre d b, ?_, ?_⟩
  · simp only [getRowsAndCols]
    exact getCols_centre d b.trans
  · simp only [getRowsAndCols]
    exact getCols_centre d b

/-! ## Reading a line again, reading an empty line -/

theorem readDawg_append (L : List (List Rune)) (line : List Rune) :
    readDawg (L ++ [line]) = insertLine (readDawg L) line := by
  simp [readDawg, List.foldl_append]

theorem verify_readDawg_eq_true (L : List (List Rune)) (w : List Rune) :
    verify (readDawg L) 0 w = true ↔ w ∈ L := by
  unfold readDawg
  rw [verify_foldl_insertLine L treeShaped_root w, verify_root]
  simp

/-- C12, as amended. Reading one more line that is empty sets the word flag of the
root and nothing else: afterwards `verify` accepts the empty string, and answers
as before on every other string. -/
theorem verify_readDawg_append_nil (L : List (List Rune)) (w : List Rune) :
    readDawg (L ++ [[]]) = List.modify (fun n => { n with word := true }) 0 (readDawg L) ∧
    verify (readDawg (L ++ [[]])) 0 w = (verify (readDawg L) 0 w || decide (w = [])) := by
  rw [readDawg_append]
  exact ⟨rfl, verify_insertLine (treeShaped_readDawg L) [] w⟩

/-- C12, as stated, fails: the tree read from no line rejects the empty string, the
tree read from one empty line accepts it. -/
theorem verify_nil_after_empty_line :
    verify (readDawg []) 0 [] = false ∧ verify (readDawg ([] ++ [[]])) 0 [] = true := by
  decide

theorem foldl_descend_of_walk (h : Heap) (w : List Rune) (p q : Nat)
    (hw : walk h p w = some q) : w.foldl descend (h, p) = (h, q) := by
  induction w generalizing p with
  | nil =>
    simp only [walk, Option.some.injEq] at hw
    simp [hw]
  | cons a rest ih =>
    cases hc : GoMap.get? (node h p).childs a with
    | none => simp [walk, hc] at hw
    | some c =>
      simp only [walk, hc] at hw
      rw [List.foldl_cons, descend_some h p a c hc]
      exact ih c hw

theorem setWord_of_word (h : Heap) (q : Nat) (hq : (node h q).word = true) :
    List.modify (fun n => { n with word := true }) q h = h := by
  apply List.ext_getElem?
  intro m
  rw [List.getElem?_modify]
  cases hm : h[m]? with
  | none => rfl
  | some a =>
    by_cases e : q = m
    · subst e
      have ha : node h q = a := by simp [node, hm]
      rw [ha] at hq
      cases a
      simp only at hq
      simp [hq]
    · simp [e]

/-- C13. For a word that is among the lines already read, reading it once more
gives the same heap, node for node, so the same children, the same word flags and
the same answers of `verify`. -/
theorem readDawg_append_mem (L : List (List Rune)) (w : List Rune) (hw : w ∈ L) :
    readDawg (L ++ [w]) = readDawg L ∧
    ∀ u, verify (readDawg (L ++ [w])) 0 u = verify (readDawg L) 0 u := by
  have hv := (verify_readDawg_eq_true L w).mpr hw
  rw [verify_eq_walk] at hv
  have heq : readDawg (L ++ [w]) = readDawg L := by
    rw [readDawg_append]
    cases hq : walk (readDawg L) 0 w with
    | none => simp [hq] at hv
    | some q =>
      simp only [hq] at hv
      unfold insertLine
      simp only [foldl_descend_of_walk _ w 0 q hq]
      exact setWord_of_word _ q hv
  exact ⟨heq, fun u => by rw [heq]⟩

/-- C13, the theorem at a concrete input: `cab` read twice. -/
theorem readDawg_append_mem_witness :
    ['c', 'a', 'b'] ∈ [['c', 'a', 'b']] ∧
    readDawg ([['c', 'a', 'b']] ++ [['c', 'a', 'b']]) = readDawg [['c', 'a', 'b']] :=
  ⟨by decide, (readDawg_append_mem [['c', 'a', 'b']] ['c', 'a', 'b'] (by decide)).1⟩

/-! ## The tree of calls of `move` -/

/-- The moves of a step are those of the steps it starts, then its own. -/
theorem move_eq_spawns (d : Heap) (b : Board) (m : Move) (s : Step) :
    move d b m s.anchored s.hand s.head s.remaining =
      (spawns d s).flatMap (fun t => move d b m t.anchored t.hand t.head t.remaining) ++
        (if sends d s then [emitted d b m s.head] else []) := by
  obtain ⟨anchored, hand, head, remaining⟩ := s
  cases remaining with
  | nil => simp [move, spawns, sends]
  | cons cell rest =>
    simp only [move, spawns, sends, List.flatMap_assoc]
    congr 1
    apply List.flatMap_congr
    intro char _
    rcases GoMap.get? hand char with _ | n
    all_goals cases GoMap.has cell 'S'
    all_goals cases GoMap.get? (node d head).childs char
    all_goals simp
    all_goals by_cases hn : n = 0
    all_goals simp [hn]

theorem stepCount_eq_spawns (d : Heap) (s : Step) :
    stepCount d s.anchored s.hand s.head s.remaining =
      1 + ((spawns d s).map fun t => stepCount d t.anchored t.hand t.head t.remaining).sum := by
  obtain ⟨anchored, hand, head, remaining⟩ := s
  cases remaining with
  | nil => simp [stepCount, spawns]
  | cons cell rest =>
    simp only [stepCount, spawns]
    congr 1
    induction GoMap.keys cell with
    | nil => simp
    | cons char chars ih =>
      simp only [List.map_cons, List.sum_cons, List.flatMap_cons, List.map_append,
        List.sum_append, ih]
      congr 1
      rcases GoMap.get? hand char with _ | n
      all_goals cases GoMap.has cell 'S'
      all_goals cases GoMap.get? (node d head).childs char
      all_goals simp
      all_goals by_cases hn : n = 0
      all_goals simp [hn]

theorem spawns_remaining (d : Heap) (s t : Step) (ht : t ∈ spawns d s) :
    t.remaining = s.remaining.tail ∧ t.remaining.length + 1 = s.remaining.length := by
  obtain ⟨anchored, hand, head, remaining⟩ := s
  cases remaining with
  | nil => simp [spawns] at ht
  | cons cell rest =>
    simp only [spawns, List.mem_flatMap] at ht
    obtain ⟨char, _, ht⟩ := ht
    split at ht
    · cases ht
    · split at ht
      · cases ht
      · simp only [List.mem_singleton] at ht
        subst ht
        simp

theorem spawns_wf (d : Heap) : WellFounded (fun t s : Step => t ∈ spawns d s) := by
  apply Subrelation.wf (r := InvImage (· < ·) fun s : Step => s.remaining.length)
  · intro t s ht
    have := (spawns_remaining d s t ht).2
    simp only [InvImage]
    omega
  · exact InvImage.wf _ Nat.lt_wfRel.wf

theorem chain_length_le (d : Heap) (chain : List Step) (s : Step)
    (hc : List.Chain (fun s t => t ∈ spawns d s) s chain) :
    chain.length ≤ s.remaining.length := by
  induction chain generalizing s with
  | nil => simp
  | cons t rest ih =>
    obtain ⟨hst, hrest⟩ := List.chain_cons.mp hc
    have h1 := (spawns_remaining d s t hst).2
    have h2 := ih t hrest
    simp only [List.length_cons]
    omega

theorem findAllMoves_eq_topCalls (d : Heap) (b : Board) :
    findAllMoves d b = (topCalls d b).flatMap fun c =>
      move d (getRowsAndCols d b).2.2 c.1 c.2.anchored c.2.hand c.2.head c.2.remaining := by
  simp only [findAllMoves, topCalls, List.flatMap_assoc]
  apply List.flatMap_congr
  intro i _
  apply List.flatMap_congr
  intro j _
  simp

theorem length_flatMap_const {α β : Type} (l : List α) (f : α → List β) (k : Nat)
    (hf : ∀ a, (f a).length = k) : (l.flatMap f).length = l.length * k := by
  induction l with
  | nil => simp
  | cons a rest ih =>
    rw [List.flatMap_cons, List.length_append, ih, hf, List.length_cons]
    ring

theorem length_topCalls (d : Heap) (b : Board) : (topCalls d b).length = 450 := by
  unfold topCalls
  simp only
  rw [length_flatMap_const _ _ 30 ?_, List.length_range]
  intro i
  rw [length_flatMap_const _ _ 2 ?_, List.length_range]
  intro j
  rfl

theorem spawns_length_le (d : Heap) (s : Step) :
    (spawns d s).length ≤ (GoMap.keys (s.remaining.headD [])).length := by
  obtain ⟨anchored, hand, head, remaining⟩ := s
  cases remaining with
  | nil => simp [spawns]
  | cons cell rest =>
    simp only [spawns, List.headD_cons]
    induction GoMap.keys cell with
    | nil => simp
    | cons char chars ih =>
      simp only [List.flatMap_cons, List.length_append, List.length_cons]
      have : (if (match GoMap.get? hand char with
            | none => true
            | some n => n == 0) && !GoMap.has cell 'S' then ([] : List Step)
          else
            match GoMap.get? (node d head).childs char with
            | none => []
            | some newHead =>
              [⟨GoMap.has cell 'A' || anchored,
                GoMap.set hand char (GoMap.getD hand char 0 - 1), newHead, rest⟩]).length ≤ 1 := by
        split
        · simp
        · split <;> simp
      omega

/-- The calls below one call are at most the product, over the cells ahead, of one
more than the number of tokens of the cell. -/
theorem stepCount_le (d : Heap) (remaining : List Cell) (anchored : Bool) (hand : GoMap Int)
    (head : Nat) :
    stepCount d anchored hand head remaining ≤
      (remaining.map fun c => 1 + (GoMap.keys c).length).prod := by
  induction remaining generalizing anchored hand head with
  | nil => simp [stepCount]
  | cons cell rest ih =>
    simp only [stepCount, List.map_cons, List.prod_cons]
    have hpos : 1 ≤ (rest.map fun c => 1 + (GoMap.keys c).length).prod := by
      apply Nat.one_le_iff_ne_zero.mpr
      simp [List.prod_eq_zero_iff]
    have hsum : ((GoMap.keys cell).map fun char =>
        if (match GoMap.get? hand char with
            | none => true
            | some n => n == 0) && !GoMap.has cell 'S' then 0
        else
          match GoMap.get? (node d head).childs char with
          | none => 0
          | some newHead =>
            stepCount d (GoMap.has cell 'A' || anchored)
              (GoMap.set hand char (GoMap.getD hand char 0 - 1)) newHead rest).sum ≤
        (GoMap.keys cell).length * (rest.map fun c => 1 + (GoMap.keys c).length).prod := by
      have := List.sum_le_card_nsmul ((GoMap.keys cell).map fun char =>
        if (match GoMap.get? hand char with
            | none => true
            | some n => n == 0) && !GoMap.has cell 'S' then 0
        else
          match GoMap.get? (node d head).childs char with
          | none => 0
          | some newHead =>
            stepCount d (GoMap.has cell 'A' || anchored)
              (GoMap.set hand char (GoMap.getD hand char 0 - 1)) newHead rest)
        ((rest.map fun c => 1 + (GoMap.keys c).length).prod) (by
          intro x hx
          simp only [List.mem_map] at hx
          obtain ⟨char, _, rfl⟩ := hx
          split
          · omega
          · split
            · omega
            · exact ih _ _ _)
      simpa using this
    calc 1 + _ ≤ 1 * (rest.map fun c => 1 + (GoMap.keys c).length).prod +
          (GoMap.keys cell).length * (rest.map fun c => 1 + (GoMap.keys c).length).prod := by
            omega
      _ = _ := by ring
/-! ## Size of the cross-check sets -/

theorem length_set_le {V : Type} (m : GoMap V) (k : Rune) (v : V) :
    (GoMap.set m k v).length ≤ m.length + 1 := by
  induction m with
  | nil => simp [GoMap.set]
  | cons p rest ih =>
    obtain ⟨k1, v1⟩ := p
    by_cases hk : k1 = k
    · simp [GoMap.set, hk]
    · simp only [GoMap.set, hk, if_false, List.length_cons]
      omega

theorem length_foldl_set_if (ks : List Rune) (p : Rune → Bool) (c : GoMap Int) :
    (ks.foldl (fun c char => if p char then GoMap.set c char 1 else c) c).length ≤
      c.length + ks.length := by
  induction ks generalizing c with
  | nil => simp
  | cons k rest ih =>
    simp only [List.foldl_cons, List.length_cons]
    have h1 := ih (if p k then GoMap.set c k 1 else c)
    have h2 : (if p k then GoMap.set c k 1 else c).length ≤ c.length + 1 := by
      split
      · exact length_set_le c k 1
      · omega
    omega

theorem length_foldl_set (ks : List Rune) (c : GoMap Int) :
    (ks.foldl (fun c char => GoMap.set c char 1) c).length ≤ c.length + ks.length := by
  induction ks generalizing c with
  | nil => simp
  | cons k rest ih =>
    simp only [List.foldl_cons, List.length_cons]
    have h1 := ih (GoMap.set c k 1)
    have h2 := length_set_le c k 1
    omega

theorem length_colsCell (d : Heap) (b : Board) (x y : Int) :
    (colsCell d b x y).length ≤ b.hand.length + 3 := by
  have hk : (GoMap.keys b.hand).length = b.hand.length := by simp [GoMap.keys]
  have hE : (GoMap.set ([] : Cell) 'E' 0).length ≤ 1 := length_set_le ([] : Cell) 'E' 0
  unfold colsCell
  simp only
  split
  · have h1 := length_set_le (GoMap.set (GoMap.set ([] : Cell) (b.cell x y) 1) 'A' 0) 'S' 0
    have h2 := length_set_le (GoMap.set ([] : Cell) (b.cell x y) 1) 'A' 0
    have h3 : (GoMap.set ([] : Cell) (b.cell x y) 1).length ≤ 1 :=
      length_set_le ([] : Cell) (b.cell x y) 1
    exact le_trans h1 (by omega)
  · split
    · refine le_trans (length_foldl_set _ _) ?_
      omega
    · refine le_trans (length_foldl_set_if _ (fun char => verify d 0
        ((wordFrom b x y (wordStart b x y 15 0) 15 0).set (wordStart b x y 15 0).toNat char))
        _) ?_
      have h1 := length_set_le (GoMap.set ([] : Cell) 'E' 0) 'A' 0
      omega

theorem mem_modify {α : Type} (f : α → α) (n : Nat) (l : List α) (x : α)
    (hx : x ∈ List.modify f n l) : x ∈ l ∨ ∃ y ∈ l, x = f y := by
  induction l generalizing n with
  | nil => simp at hx
  | cons a rest ih =>
    cases n with
    | zero =>
      simp only [List.modify_zero_cons, List.mem_cons] at hx
      rcases hx with rfl | hx
      · exact Or.inr ⟨a, by simp, rfl⟩
      · exact Or.inl (by simp [hx])
    | succ k =>
      simp only [List.modify_succ_cons, List.mem_cons] at hx
      rcases hx with rfl | hx
      · exact Or.inl (by simp)
      · rcases ih k hx with h | ⟨y, hy, rfl⟩
        · exact Or.inl (by simp [h])
        · exact Or.inr ⟨y, by simp [hy], rfl⟩

/-- Every column of the table of `getCols` has 15 sets, each with at most four keys
more than the hand. -/
theorem getCols_sizes (d : Heap) (b : Board) :
    ∀ col ∈ getCols d b, col.length = 15 ∧ ∀ c ∈ col, c.length ≤ b.hand.length + 4 := by
  intro col hcol
  rw [getCols_eq] at hcol
  have hplain : ∀ col0 ∈ (List.range 15).map (fun x : Nat =>
      (List.range 15).map fun y : Nat => colsCell d b x y),
      col0.length = 15 ∧ ∀ c ∈ col0, c.length ≤ b.hand.length + 3 := by
    intro col0 h0
    simp only [List.mem_map] at h0
    obtain ⟨x, _, rfl⟩ := h0
    refine ⟨by simp, ?_⟩
    intro c hc
    simp only [List.mem_map] at hc
    obtain ⟨y, _, rfl⟩ := hc
    exact length_colsCell d b x y
  rcases mem_modify _ _ _ _ hcol with h | ⟨col0, h0, rfl⟩
  · obtain ⟨h1, h2⟩ := hplain col h
    exact ⟨h1, fun c hc => by have := h2 c hc; omega⟩
  · obtain ⟨h1, h2⟩ := hplain col0 h0
    refine ⟨by simpa using h1, ?_⟩
    intro c hc
    rcases mem_modify _ _ _ _ hc with h | ⟨c0, hc0, rfl⟩
    · have := h2 c h
      omega
    · have := h2 c0 hc0
      have := length_set_le c0 'A' 0
      omega

theorem getD_nil_or_mem {α : Type} (l : List (List α)) (i : Nat) :
    l.getD i [] = [] ∨ l.getD i [] ∈ l := by
  rw [List.getD_eq_getElem?_getD]
  cases h : l[i]? with
  | none => exact Or.inl rfl
  | some a => exact Or.inr (List.mem_iff_getElem?.mpr ⟨i, h⟩)

/-- The slice `cols[i][j:]` handed to a top-level call has at most 15 sets, each
with at most four keys more than the hand. -/
theorem drop_getCols_sizes (d : Heap) (b : Board) (i j : Nat) :
    (((getCols d b).getD i []).drop j).length ≤ 15 ∧
    ∀ c ∈ ((getCols d b).getD i []).drop j, c.length ≤ b.hand.length + 4 := by
  rcases getD_nil_or_mem (getCols d b) i with h | h
  · rw [h]
    simp
  · obtain ⟨h1, h2⟩ := getCols_sizes d b _ h
    refine ⟨by simp only [List.length_drop]; omega, fun c hc => h2 c (List.mem_of_mem_drop hc)⟩

theorem topCalls_sizes (d : Heap) (b : Board) :
    ∀ c ∈ topCalls d b, c.2.remaining.length ≤ 15 ∧
      ∀ cell ∈ c.2.remaining, cell.length ≤ b.hand.length + 4 := by
  intro c hc
  simp only [topCalls, getRowsAndCols, trans_eq_self, List.mem_flatMap, List.mem_cons,
    List.mem_singleton, List.not_mem_nil, or_false] at hc
  obtain ⟨i, _, j, _, rfl | rfl⟩ := hc
  · exact drop_getCols_sizes d b i j
  · exact drop_getCols_sizes d b i j

theorem stepCount_top_le (d : Heap) (b : Board) :
    ∀ c ∈ topCalls d b,
      stepCount d c.2.anchored c.2.hand c.2.head c.2.remaining ≤ (b.hand.length + 5) ^ 15 := by
  intro c hc
  obtain ⟨h1, h2⟩ := topCalls_sizes d b c hc
  refine le_trans (stepCount_le d _ _ _ _) ?_
  refine le_trans (List.prod_le_pow_card _ (b.hand.length + 5) ?_) ?_
  · intro x hx
    simp only [List.mem_map] at hx
    obtain ⟨cell, hcell, rfl⟩ := hx
    have := h2 cell hcell
    simp only [GoMap.keys, List.length_map]
    omega
  · rw [List.length_map]
    exact Nat.pow_le_pow_right (by omega) h1

/-- The tree of calls of `move`, apart from the channels: a call hands each call it
starts the slice `remaining[1:]`, one set shorter, and starts at most one call per
token of `remaining[0]`; so the relation "is started by" is well-founded, a chain
of calls below any of the 450 top-level calls has at most 15 links, and the number
of calls in a run that starts them all is at most `450 * (h + 5) ^ 15`, `h` being
the number of distinct letters of the hand. -/
theorem move_terminates (d : Heap) (b : Board) :
    (∀ s t, t ∈ spawns d s →
      t.remaining = s.remaining.tail ∧ t.remaining.length + 1 = s.remaining.length) ∧
    (∀ s, (spawns d s).length ≤ (GoMap.keys (s.remaining.headD [])).length) ∧
    WellFounded (fun t s : Step => t ∈ spawns d s) ∧
    (topCalls d b).length = 450 ∧
    (∀ c ∈ topCalls d b, ∀ chain,
      List.Chain (fun s t => t ∈ spawns d s) c.2 chain → chain.length ≤ 15) ∧
    totalSteps d b ≤ 450 * (b.hand.length + 5) ^ 15 := by
  refine ⟨spawns_remaining d, spawns_length_le d, spawns_wf d, length_topCalls d b, ?_, ?_⟩
  · intro c hc chain hchain
    exact le_trans (chain_length_le d chain c.2 hchain) (topCalls_sizes d b c hc).1
  · unfold totalSteps
    have := List.sum_le_card_nsmul ((topCalls d b).map fun c =>
      stepCount d c.2.anchored c.2.hand c.2.head c.2.remaining) ((b.hand.length + 5) ^ 15) (by
        intro x hx
        simp only [List.mem_map] at hx
        obtain ⟨c, hc, rfl⟩ := hx
        exact stepCount_top_le d b c hc)
    simpa [length_topCalls] using this

/-! ## The hand along a branch -/

set_option maxRecDepth 100000 in
/-- C16. With one tile `c` at `board[7][7]`, hand `{c:1, a:1}` and the dictionary
`cca`: the set of the occupied cell is static, the step at the root that crosses it
hands its child the hand `{c:0, a:1}`, one `c` less than its own, and `findAllMoves`
does not return `_ c a` down from `(7, 7)`, the play of the held `c` and `a` below
the tile. -/
theorem spawns_tileLowerC :
    ((getCols (readDawg [['c', 'c', 'a']]) tileLowerCBoard).getD 7 []).getD 7 [] =
      [('c', 1), ('A', 0), ('S', 0)] ∧
    spawns (readDawg [['c', 'c', 'a']])
        ⟨false, [('c', 1), ('a', 1)], 0, [[('c', 1), ('A', 0), ('S', 0)]]⟩ =
      [⟨true, [('c', 0), ('a', 1)], 1, []⟩] ∧
    (⟨7, 7, true, ['_', 'c', 'a']⟩ : Move) ∉
      findAllMoves (readDawg [['c', 'c', 'a']]) tileLowerCBoard ∧
    findAllMoves (readDawg [['c', 'c', 'a']]) tileLowerCBoard =
      [⟨7, 6, true, ['c', '_', 'a']⟩, ⟨6, 7, false, ['c', '_', 'a']⟩] := by
  rw [findAllMoves_eq]
  decide

set_option maxRecDepth 100000 in
/-- C17. With the tiles `c`, `c` at `board[7][7]`, `board[7][8]`, hand `{c:1}` and the
dictionary `cccc`, `findAllMoves` returns `_ _ c c` down from `(7, 7)`: two `c` are
newly placed while the hand holds one. On the way the count of `c` drops below
zero: after the two occupied cells the branch holds `{c:-1}`, and the test
`n == 0` lets it through. -/
theorem findAllMoves_doubleC :
    (⟨7, 7, true, ['_', '_', 'c', 'c']⟩ : Move) ∈
      findAllMoves (readDawg [['c', 'c', 'c', 'c']]) doubleCBoard ∧
    (['_', '_', 'c', 'c'] : List Rune).count 'c' = 2 ∧
    GoMap.getD doubleCBoard.hand 'c' 0 = 1 ∧
    ((spawns (readDawg [['c', 'c', 'c', 'c']])
        ⟨false, [('c', 1)], 0,
          [[('c', 1), ('A', 0), ('S', 0)], [('c', 1), ('A', 0), ('S', 0)]]⟩).flatMap
      (spawns (readDawg [['c', 'c', 'c', 'c']]))) = [⟨true, [('c', -1)], 2, []⟩] := by
  rw [findAllMoves_eq]
  decide

/-! ## The parent chain spells the path from the root -/

theorem parent_descend {h : Heap} (head q : Nat) (char : Rune)
    (hp : head < h.length) (hq : q < h.length) :
    (node (descend (h, head) char).1 q).parent = (node h q).parent := by
  cases hc : GoMap.get? (node h head).childs char with
  | some c => rw [descend_some h head char c hc]
  | none =>
    rw [descend_none h head char hc]
    exact (node_withChild_fields h head char q hp hq).1

theorem parent_foldl_descend (line : List Rune) {h : Heap} (ht : TreeShaped h) (head q : Nat)
    (hp : head < h.length) (hq : q < h.length) :
    (node (line.foldl descend (h, head)).1 q).parent = (node h q).parent := by
  induction line generalizing h head with
  | nil => rfl
  | cons a rest ih =>
    obtain ⟨t1, l1, g1, _, _, _⟩ := descend_spec ht head a hp
    have hpar := parent_descend head q a hp hq
    rw [List.foldl_cons]
    rcases hd : descend (h, head) a with ⟨h1, head1⟩
    rw [hd] at t1 l1 g1 hpar
    simp only at t1 l1 g1 hpar
    rw [ih t1 head1 l1 (by omega), hpar]

theorem parent_insertLine {h : Heap} (ht : TreeShaped h) (line : List Rune) (q : Nat)
    (hq : q < h.length) : (node (insertLine h line) q).parent = (node h q).parent := by
  obtain ⟨_, l, _, _, _, _⟩ := foldl_descend_spec line ht 0 ht.pos
  unfold insertLine
  simp only
  rw [node_setWord _ _ q l, ← parent_foldl_descend line ht 0 q ht.pos hq]
  split
  · rename_i e
    rw [e]
  · rfl

theorem root_parent_foldl_insertLine (lines : List (List Rune)) {h : Heap} (ht : TreeShaped h) :
    (node (lines.foldl insertLine h) 0).parent = (node h 0).parent := by
  induction lines generalizing h with
  | nil => rfl
  | cons line rest ih =>
    rw [List.foldl_cons, ih (treeShaped_insertLine ht line), parent_insertLine ht line 0 ht.pos]

/-- The root that `readDawg` returns has no parent. -/
theorem root_parent_readDawg (L : List (List Rune)) : (node (readDawg L) 0).parent = none := by
  unfold readDawg
  rw [root_parent_foldl_insertLine L treeShaped_root]
  rfl

theorem walk_length_le {h : Heap} (ht : TreeShaped h) (p q : Nat) (w : List Rune)
    (hw : walk h p w = some q) : p + w.length ≤ q := by
  induction w generalizing p with
  | nil =>
    simp only [walk, Option.some.injEq] at hw
    simp [hw]
  | cons char rest ih =>
    cases hc : GoMap.get? (node h p).childs char with
    | none => simp [walk, hc] at hw
    | some c =>
      simp only [walk, hc] at hw
      have h1 := (ht.edge p char c hc).1
      have h2 := ih c hw
      simp only [List.length_cons]
      omega

/-- In a tree-shaped heap whose root has no parent, the loop of lines 205-208,
started at the node that `w` leads to from the root, collects `w`, provided it is
given more rounds than `w` has letters. -/
theorem lettersOf_walk {h : Heap} (ht : TreeShaped h) (hroot : (node h 0).parent = none)
    (w : List Rune) (q fuel : Nat) (acc : List Rune) (hw : walk h 0 w = some q)
    (hfuel : w.length < fuel) : lettersOf h fuel q acc = w ++ acc := by
  induction w using List.reverseRecOn generalizing q fuel acc with
  | nil =>
    simp only [walk, Option.some.injEq] at hw
    subst hw
    obtain ⟨n, rfl⟩ := Nat.exists_eq_succ_of_ne_zero (Nat.pos_iff_ne_zero.mp hfuel)
    simp [lettersOf, hroot]
  | append_singleton u c ih =>
    rw [walk_append] at hw
    cases hp : walk h 0 u with
    | none => simp [hp] at hw
    | some p =>
      simp only [hp, Option.some_bind, walk] at hw
      cases hc : GoMap.get? (node h p).childs c with
      | none => simp [hc] at hw
      | some q1 =>
        simp only [hc, Option.some.injEq] at hw
        subst hw
        obtain ⟨_, _, hpar, hlet⟩ := ht.edge p c q1 hc
        simp only [List.length_append, List.length_singleton] at hfuel
        obtain ⟨n, rfl⟩ := Nat.exists_eq_succ_of_ne_zero (by omega : fuel ≠ 0)
        simp only [lettersOf, hpar, hlet]
        rw [ih p n (c :: acc) hp (by omega)]
        simp

/-- With as many rounds as the heap has nodes, the loop of lines 205-208 returns
the word that leads from the root to the node. -/
theorem lettersOf_readDawg (L : List (List Rune)) (w : List Rune) (q : Nat)
    (hw : walk (readDawg L) 0 w = some q) :
    lettersOf (readDawg L) (readDawg L).length q [] = w := by
  have ht := treeShaped_readDawg L
  have h1 := walk_length_le ht 0 q w hw
  have h2 := walk_lt_length ht 0 q w ht.pos hw
  rw [lettersOf_walk ht (root_parent_readDawg L) w q _ [] hw (by omega)]
  simp

/-! ## What a step sends -/

/-- Every move sent by a step or below it is the one built at a node that some
word, no longer than `remaining`, leads to from `head`, and that node carries the
word flag. -/
theorem move_sent (d : Heap) (b : Board) (m : Move) (remaining : List Cell) (anchored : Bool)
    (hand : GoMap Int) (head : Nat) (m1 : Move)
    (hm : m1 ∈ move d b m anchored hand head remaining) :
    ∃ w head1, w.length ≤ remaining.length ∧ walk d head w = some head1 ∧
      (node d head1).word = true ∧ m1 = emitted d b m head1 := by
  induction remaining generalizing anchored hand head with
  | nil =>
    unfold move at hm
    split at hm
    · rename_i hc
      simp only [List.mem_singleton] at hm
      simp only [Bool.and_true, Bool.and_eq_true] at hc
      exact ⟨[], head, le_refl _, rfl, hc.1, hm⟩
    · cases hm
  | cons cell rest ih =>
    unfold move at hm
    simp only [List.mem_append, List.mem_flatMap] at hm
    rcases hm with ⟨char, _, hm⟩ | hm
    · split at hm
      · cases hm
      · split at hm
        · cases hm
        · rename_i newHead hc
          obtain ⟨w, head1, hlen, hwalk, hword, heq⟩ := ih _ _ newHead hm
          refine ⟨char :: w, head1, by simp only [List.length_cons]; omega, ?_, hword, heq⟩
          simp [walk, hc, hwalk]
    · split at hm
      · rename_i hc
        simp only [List.mem_singleton] at hm
        simp only [Bool.and_eq_true] at hc
        exact ⟨[], head, by simp, rfl, hc.1.1, hm⟩
      · cases hm

theorem restore_markPlaced (b : Board) (m : Move) (i : Int) (w : List Rune)
    (hw : ∀ l ∈ w, l ≠ '_') : restore b m.x m.y m.down i (markPlaced b m i w) = w := by
  induction w generalizing i with
  | nil => rfl
  | cons l rest ih =>
    have hl : l ≠ '_' := hw l (by simp)
    simp only [markPlaced, restore]
    rw [ih (i + 1) (fun l1 h1 => hw l1 (by simp [h1]))]
    congr 1
    by_cases e : b.cell (if m.down then m.x else m.x + i) (if m.down then m.y + i else m.y) = l
    · simp [e]
    · simp [e, hl]

/-- The moves of `findAllMoves` on a tree built by `readDawg`: each is built from a
word of the dictionary, no longer than the slice of its top-level call, by
`markPlaced` at the origin of that call. -/
theorem findAllMoves_sent (L : List (List Rune)) (b : Board) (m : Move)
    (hm : m ∈ findAllMoves (readDawg L) b) :
    ∃ c ∈ topCalls (readDawg L) b, ∃ w, w ∈ L ∧ w.length ≤ c.2.remaining.length ∧
      m = { c.1 with letters := markPlaced b c.1 0 w } := by
  rw [findAllMoves_eq_topCalls] at hm
  simp only [List.mem_flatMap] at hm
  obtain ⟨c, hc, hm⟩ := hm
  have hhead : c.2.head = 0 := by
    simp only [topCalls, List.mem_flatMap, List.mem_cons, List.mem_singleton,
      List.not_mem_nil, or_false] at hc
    obtain ⟨i, _, j, _, rfl | rfl⟩ := hc <;> rfl
  obtain ⟨w, head1, hlen, hwalk, hword, heq⟩ := move_sent _ _ _ _ _ _ _ _ hm
  rw [hhead] at hwalk
  have hv : verify (readDawg L) 0 w = true := by
    rw [verify_eq_walk, hwalk]
    exact hword
  refine ⟨c, hc, w, (verify_readDawg_eq_true L w).mp hv, hlen, ?_⟩
  rw [heq]
  simp only [emitted, getRowsAndCols, trans_eq_self, lettersOf_readDawg L w head1 hwalk]
/-- C18, as amended. For a dictionary none of whose words contains the marker `'_'`,
every move that `findAllMoves` returns spells a word that `verify` accepts, once
each `'_'` is replaced by the board letter at its position; and on every tree built
by `readDawg` the walk along the parent pointers returns the path from the root to
the node, letter by letter. -/
theorem findAllMoves_spelled (L : List (List Rune)) (b : Board) (m : Move)
    (hL : ∀ w ∈ L, '_' ∉ w) (hm : m ∈ findAllMoves (readDawg L) b) :
    verify (readDawg L) 0 (spelled b m) = true ∧
    ∀ w q, walk (readDawg L) 0 w = some q →
      lettersOf (readDawg L) (readDawg L).length q [] = w := by
  refine ⟨?_, fun w q hw => lettersOf_readDawg L w q hw⟩
  obtain ⟨c, _, w, hw, _, rfl⟩ := findAllMoves_sent L b m hm
  have hclean : ∀ l ∈ w, l ≠ '_' := fun l hl e => hL w hw (e ▸ hl)
  simp only [spelled]
  rw [restore_markPlaced b c.1 0 w hclean]
  exact (verify_readDawg_eq_true L w).mpr hw

set_option maxRecDepth 100000 in
/-- C18, the theorem at a concrete input: `cab` down from the centre of the empty
board. -/
theorem findAllMoves_spelled_witness :
    (∀ w ∈ [['c', 'a', 'b']], '_' ∉ w) ∧
    (⟨7, 7, true, ['c', 'a', 'b']⟩ : Move) ∈
      findAllMoves (readDawg [['c', 'a', 'b']]) lowerCaseBoard ∧
    verify (readDawg [['c', 'a', 'b']]) 0
      (spelled lowerCaseBoard ⟨7, 7, true, ['c', 'a', 'b']⟩) = true :=
  ⟨by decide, by rw [findAllMoves_eq]; decide,
    (findAllMoves_spelled [['c', 'a', 'b']] lowerCaseBoard ⟨7, 7, true, ['c', 'a', 'b']⟩
      (by decide) (by rw [findAllMoves_eq]; decide)).1⟩

set_option maxRecDepth 100000 in
/-- C18, as stated, fails: with the one-letter word `_` in the dictionary and `_` in
the hand, `findAllMoves` returns on the empty board the move that lays `_` on the
centre; read back, its `'_'` becomes the blank of the empty cell, and `verify`
rejects the result. -/
theorem findAllMoves_underscore_not_spelled :
    (⟨7, 7, true, ['_']⟩ : Move) ∈ findAllMoves (readDawg [['_']]) underscoreBoard ∧
    spelled underscoreBoard ⟨7, 7, true, ['_']⟩ = [' '] ∧
    verify (readDawg [['_']]) 0 (spelled underscoreBoard ⟨7, 7, true, ['_']⟩) = false := by
  rw [findAllMoves_eq]
  decide

/-! ## The cell before a move -/

set_option maxRecDepth 100000 in
/-- C19. With one tile `x` at `board[7][6]`, hand `{a:1, b:1}` and the dictionary
`ab`, `findAllMoves` returns `ab` down from `(7, 7)` although the cell before the
origin, `(7, 6)`, is on the board and holds `x`. -/
theorem findAllMoves_tileX :
    (⟨7, 7, true, ['a', 'b']⟩ : Move) ∈ findAllMoves (readDawg [['a', 'b']]) tileXBoard ∧
    onBoard [7, 7 - 1] = true ∧ tileXBoard.cell 7 (7 - 1) = 'x' := by
  rw [findAllMoves_eq]
  decide

/-! ## Every read of the grid is on the board -/

theorem cell?_eq_some (b : Board) (x y : Int) (h : 0 ≤ x ∧ x < 15 ∧ 0 ≤ y ∧ y < 15) :
    b.cell? x y = some (b.cell x y) := by
  simp [Board.cell?, Board.cell, h]

theorem wordStart?_eq (b : Board) (x y : Int) (hy : 0 ≤ y ∧ y < 15) (fuel : Nat) (mx : Int) :
    wordStart? b x y fuel mx = some (wordStart b x y fuel mx) := by
  induction fuel generalizing mx with
  | zero => rfl
  | succ n ih =>
    simp only [wordStart?, wordStart]
    by_cases hon : onBoard [x - mx - 1] = true
    · have hr : 0 ≤ x - mx - 1 ∧ x - mx - 1 < 15 := by
        simpa [onBoard_singleton] using hon
      rw [cell?_eq_some b _ y ⟨hr.1, hr.2, hy.1, hy.2⟩]
      simp only [hon, if_true, Bool.true_and]
      split
      · exact ih (mx + 1)
      · rfl
    · simp [hon]

theorem wordFrom?_eq (b : Board) (x y mx : Int) (hy : 0 ≤ y ∧ y < 15) (fuel : Nat) (l : Int) :
    wordFrom? b x y mx fuel l = some (wordFrom b x y mx fuel l) := by
  induction fuel generalizing l with
  | zero => rfl
  | succ n ih =>
    simp only [wordFrom?, wordFrom]
    by_cases hon : onBoard [x - mx + l] = true
    · have hr : 0 ≤ x - mx + l ∧ x - mx + l < 15 := by
        simpa [onBoard_singleton] using hon
      rw [cell?_eq_some b _ y ⟨hr.1, hr.2, hy.1, hy.2⟩]
      simp only [hon, if_true, Bool.true_and]
      split
      · rw [ih (l + 1)]
        rfl
      · rfl
    · simp [hon]

theorem emptyAt?_eq (b : Board) (x y : Int) (hy : 0 ≤ y ∧ y < 15) :
    emptyAt? b x y = some (!onBoard [x] || b.cell x y == ' ') := by
  unfold emptyAt?
  by_cases hon : onBoard [x] = true
  · have hr : 0 ≤ x ∧ x < 15 := by simpa [onBoard_singleton] using hon
    rw [cell?_eq_some b x y ⟨hr.1, hr.2, hy.1, hy.2⟩]
    simp [hon]
  · simp [hon]

/-- For a cell of the grid, the body of the loop of `getCols` makes no read of
`b.board` outside the grid: with checked reads it returns the same set. -/
theorem colsCell?_eq (d : Heap) (b : Board) (x y : Int) (hx : 0 ≤ x ∧ x < 15)
    (hy : 0 ≤ y ∧ y < 15) : colsCell? d b x y = some (colsCell d b x y) := by
  unfold colsCell? colsCell
  rw [cell?_eq_some b x y ⟨hx.1, hx.2, hy.1, hy.2⟩]
  simp only [emptyAt?_eq b _ y hy, wordStart?_eq b x y hy, wordFrom?_eq b x y _ hy]
  by_cases hch : (b.cell x y != ' ') = true
  · simp [hch]
  · simp only [hch, if_false]
    cases h1 : (!onBoard [x - 1] || b.cell (x - 1) y == ' ') <;>
      cases h2 : (!onBoard [x + 1] || b.cell (x + 1) y == ' ') <;> simp

/-- The origin of a top-level call is a cell of the grid, and its slice reaches at
most to the edge of the grid in the direction of the move. -/
theorem topCalls_bounds (d : Heap) (b : Board) :
    ∀ c ∈ topCalls d b, 0 ≤ c.1.x ∧ c.1.x < 15 ∧ 0 ≤ c.1.y ∧ c.1.y < 15 ∧
      (if c.1.down then c.1.y + c.2.remaining.length ≤ 15
        else c.1.x + c.2.remaining.length ≤ 15) := by
  intro c hc
  simp only [topCalls, getRowsAndCols, trans_eq_self, List.mem_flatMap, List.mem_cons,
    List.mem_singleton, List.not_mem_nil, or_false, List.mem_range] at hc
  obtain ⟨i, hi, j, hj, rfl | rfl⟩ := hc
  all_goals
    have hlen : ((getCols d b).getD i []).length ≤ 15 := by
      rcases getD_nil_or_mem (getCols d b) i with h | h
      · rw [h]
        simp
      · exact le_of_eq (getCols_sizes d b _ h).1
    simp only [List.length_drop, if_true, Bool.false_eq_true, if_false]
    omega

/-- C20. A move that `findAllMoves` returns, on a tree built by `readDawg`, has its
origin on the grid and ends on the grid: `y + n <= 15` for a down move and
`x + n <= 15` for an across move, `n` being the number of its letters; so every
read `b.board[x][y]` of the loop that marks the letters is in range. And for each
cell of the grid the body of the loop of `getCols` makes no read of `b.board` out
of range: with the index check of the runtime it returns the same set. -/
theorem findAllMoves_onBoard (L : List (List Rune)) (b : Board) (m : Move)
    (hm : m ∈ findAllMoves (readDawg L) b) :
    (0 ≤ m.x ∧ m.x < 15 ∧ 0 ≤ m.y ∧ m.y < 15 ∧
      (if m.down then m.y + m.letters.length ≤ 15 else m.x + m.letters.length ≤ 15)) ∧
    (∀ i : Nat, i < m.letters.length →
      (b.cell? (if m.down then m.x else m.x + i) (if m.down then m.y + i else m.y)).isSome) ∧
    (∀ d x y, 0 ≤ x ∧ x < 15 → 0 ≤ y ∧ y < 15 → colsCell? d b x y = some (colsCell d b x y)) := by
  refine ⟨?_, ?_, fun d x y hx hy => colsCell?_eq d b x y hx hy⟩
  all_goals
    obtain ⟨c, hc, w, _, hlen, rfl⟩ := findAllMoves_sent L b m hm
    obtain ⟨h1, h2, h3, h4, h5⟩ := topCalls_bounds (readDawg L) b c hc
    obtain ⟨⟨x, y, down, ls⟩, s⟩ := c
    simp only [length_markPlaced] at h1 h2 h3 h4 h5 hlen ⊢
    cases down
  · simp only [Bool.false_eq_true, if_false] at h5 ⊢
    exact ⟨h1, h2, h3, h4, by omega⟩
  · simp only [if_true] at h5 ⊢
    exact ⟨h1, h2, h3, h4, by omega⟩
  · intro i hi
    simp only [Bool.false_eq_true, if_false] at h5 ⊢
    rw [cell?_eq_some b _ _ ⟨by omega, by omega, h3, h4⟩]
    rfl
  · intro i hi
    simp only [if_true] at h5 ⊢
    rw [cell?_eq_some b _ _ ⟨h1, h2, by omega, by omega⟩]
    rfl

set_option maxRecDepth 100000 in
/-- C20, the theorem at a concrete input: `cab` down from the centre of the empty
board. -/
theorem findAllMoves_onBoard_witness :
    (⟨7, 7, true, ['c', 'a', 'b']⟩ : Move) ∈
      findAllMoves (readDawg [['c', 'a', 'b']]) lowerCaseBoard ∧
    (7 : Int) + (['c', 'a', 'b'] : List Rune).length ≤ 15 :=
  ⟨by rw [findAllMoves_eq]; decide,
    by
      have h := (findAllMoves_onBoard [['c', 'a', 'b']] lowerCaseBoard
        ⟨7, 7, true, ['c', 'a', 'b']⟩ (by rw [findAllMoves_eq]; decide)).1.2.2.2.2
      exact h⟩

/-! ## Runs of the counting protocol -/

/-- Once the monitor has returned, nothing can happen any more: every send on
`threadCount` blocks, and so does every send on the closed `movech` short of a
panic. -/
theorem fire_closed (d : Heap) (b : Board) (calls : List (Move × Step)) (st : Sys)
    (hc : st.closed = true) (e : Event) : fire d b calls st e = none := by
  cases e with
  | driverSend => simp [fire, hc]
  | spawn k =>
    simp only [fire]
    cases st.tasks[k]? with
    | none => rfl
    | some t =>
      simp only
      cases (spawns d t.s)[t.started]? with
      | none => rfl
      | some child => simp [hc]
  | emit k =>
    simp only [fire]
    cases st.tasks[k]? with
    | none => rfl
    | some t => simp [hc]
  | done k =>
    simp only [fire]
    cases st.tasks[k]? with
    | none => rfl
    | some t => simp [hc]

/-- The tables and the board of a run, without the two calls of `trans`. -/
theorem protocolRun_eq (d : Heap) (b : Board) (es : List Event) :
    protocolRun d b es =
      run d b ((List.range 15).flatMap fun i => (List.range 15).flatMap fun j =>
        [((⟨i, j, true, []⟩ : Move),
            (⟨false, b.hand, 0, ((getCols d b).getD i []).drop j⟩ : Step)),
          ((⟨j, i, false, []⟩ : Move),
            (⟨false, b.hand, 0, ((getCols d b).getD i []).drop j⟩ : Step))])
        startSys es := by
  simp only [protocolRun, topCalls, getRowsAndCols, trans_eq_self]

/-- The schedule of `nextEvent` is a run. -/
theorem runInOrder_is_run (d : Heap) (b : Board) (calls : List (Move × Step)) (fuel : Nat)
    (st : Sys) : ∃ es, run d b calls st es = some (runInOrder d b calls fuel st) := by
  induction fuel generalizing st with
  | zero => exact ⟨[], rfl⟩
  | succ n ih =>
    simp only [runInOrder]
    cases hn : nextEvent d st with
    | none => exact ⟨[], rfl⟩
    | some e =>
      simp only
      cases hf : fire d b calls st e with
      | none => exact ⟨[], rfl⟩
      | some st1 =>
        obtain ⟨es, hes⟩ := ih st1
        exact ⟨e :: es, by simp [run, hf, hes]⟩

set_option maxRecDepth 1000000 in
/-- A run that goes well: with no tile, no hand and no word, when the driver
finishes its loop before any search reports, the run ends with `movech` closed and
returns the list of `findAllMoves`. -/
theorem protocolRun_empty_returns :
    ∃ es st, protocolRun (readDawg []) ⟨[], emptyGrid⟩ es = some st ∧
      returned st = some (findAllMoves (readDawg []) ⟨[], emptyGrid⟩) := by
  obtain ⟨es, hes⟩ := runInOrder_is_run (readDawg []) ⟨[], emptyGrid⟩
    ((List.range 15).flatMap fun i => (List.range 15).flatMap fun j =>
      [((⟨i, j, true, []⟩ : Move), (⟨false, [], 0,
          ((getCols (readDawg []) ⟨[], emptyGrid⟩).getD i []).drop j⟩ : Step)),
        ((⟨j, i, false, []⟩ : Move), (⟨false, [], 0,
          ((getCols (readDawg []) ⟨[], emptyGrid⟩).getD i []).drop j⟩ : Step))])
    675 startSys
  refine ⟨es, _, by rw [protocolRun_eq]; exact hes, ?_⟩
  rw [findAllMoves_eq]
  decide!

set_option maxRecDepth 100000 in
/-- C14. A run of `findAllMoves` that never returns: with `C`, `A`, `T` on row 7, hand
`{S:1}` and the dictionary `CATS`, the driver completes `threadCount <- 2` once, and
the two searches from `(0, 0)`, which start no branch and send no move, complete
`threadCount <- -1` before the driver's second send. The monitor's total is then
`0`, it closes `movech` and returns; after that no event can happen, the driver
is blocked in round 2 of 225 and nothing is returned. -/
theorem findAllMoves_deadlock :
    ∃ st, protocolRun (readDawg [['C', 'A', 'T', 'S']]) scenarioBBoard
        [.driverSend, .done 0, .done 0] = some st ∧
      st.rounds = 1 ∧
      (∀ e, fire (readDawg [['C', 'A', 'T', 'S']])
        (getRowsAndCols (readDawg [['C', 'A', 'T', 'S']]) scenarioBBoard).2.2
        (topCalls (readDawg [['C', 'A', 'T', 'S']]) scenarioBBoard) st e = none) ∧
      returned st = none := by
  refine ⟨⟨1, [], 0, true, []⟩, ?_, rfl, fun e => fire_closed _ _ _ _ rfl e, by decide⟩
  rw [protocolRun_eq]
  decide

set_option maxRecDepth 100000 in
/-- C15. The monitor's total can return to zero, and `movech` be closed, after one
round of the driver loop out of 225: in the run of `findAllMoves` on scenario B
with the dictionary `CATS` where both searches of round 1 report their end before
the driver's next send, the state reached has `total = 0`, `closed = true` and
`rounds = 1`. So it is not true of every run that `movech` is closed only after
all launches. -/
theorem protocolRun_closes_early :
    protocolRun (readDawg [['C', 'A', 'T', 'S']]) scenarioBBoard
      [.driverSend, .done 0, .done 0] = some ⟨1, [], 0, true, []⟩ ∧
    ¬ ∀ es st, protocolRun (readDawg [['C', 'A', 'T', 'S']]) scenarioBBoard es = some st →
      st.closed = true → st.rounds = 225 ∧ st.tasks = [] := by
  have hrun : protocolRun (readDawg [['C', 'A', 'T', 'S']]) scenarioBBoard
      [.driverSend, .done 0, .done 0] = some ⟨1, [], 0, true, []⟩ := by
    rw [protocolRun_eq]
    decide
  refine ⟨hrun, fun hall => ?_⟩
  have := (hall _ _ hrun rfl).1
  simp at this

end Scrabbler
